import Mathlib

/-!
Shallow embedding of the GarmentCode stitching core:
`pypattern/connector.py` (`StitchingRule`, `Stitches`) and
`pypattern/edge_factory.py` (`EdgeSeqFactory` and its helpers).

The `Edge`, `EdgeSequence`, `Interface` and `Panel` classes themselves are
not among the provided sources (only `connector.py` and `edge_factory.py`
are); where their behaviour is needed it is modelled from the spec, flagged
by doc comments starting with "Modelled from the spec".

Python float geometry is embedded over `ℝ`.  `np.sqrt` of a negative
argument — which NumPy turns into a silent NaN, not an exception — is
modelled explicitly (`npSqrt`) where a claim depends on it.  Python
exceptions (`RuntimeError`, `ValueError`) are modelled with `Except`.
New `geometric_id`s for edges created by subdivision are drawn from an
explicit counter `supply`, modelling per-object identity.
-/

/-- 2-D point / vector in a panel's local frame. -/
structure Pt2 where
  x : ℝ
  y : ℝ

noncomputable instance : Add Pt2 := ⟨fun a b => ⟨a.x + b.x, a.y + b.y⟩⟩

noncomputable instance : Sub Pt2 := ⟨fun a b => ⟨a.x - b.x, a.y - b.y⟩⟩

noncomputable instance : SMul ℝ Pt2 := ⟨fun c v => ⟨c * v.x, c * v.y⟩⟩

@[simp] theorem Pt2.add_mk (a b c d : ℝ) : (⟨a, b⟩ + ⟨c, d⟩ : Pt2) = ⟨a + c, b + d⟩ := rfl

@[simp] theorem Pt2.sub_mk (a b c d : ℝ) : (⟨a, b⟩ - ⟨c, d⟩ : Pt2) = ⟨a - c, b - d⟩ := rfl

@[simp] theorem Pt2.smul_mk (r a b : ℝ) : (r • (⟨a, b⟩ : Pt2)) = ⟨r * a, r * b⟩ := rfl

theorem Pt2.add_def (a b : Pt2) : a + b = ⟨a.x + b.x, a.y + b.y⟩ := rfl

theorem Pt2.sub_def (a b : Pt2) : a - b = ⟨a.x - b.x, a.y - b.y⟩ := rfl

theorem Pt2.smul_def (r : ℝ) (a : Pt2) : r • a = ⟨r * a.x, r * a.y⟩ := rfl

/-- Euclidean norm of a 2-D vector (`numpy.linalg.norm`). -/
noncomputable def norm2 (v : Pt2) : ℝ := Real.sqrt (v.x ^ 2 + v.y ^ 2)

/-- 2-D dot product. -/
noncomputable def dot2 (a b : Pt2) : ℝ := a.x * b.x + a.y * b.y

/-- 2-D cross product (`np.cross` of two planar vectors). -/
noncomputable def cross2 (a b : Pt2) : ℝ := a.x * b.y - a.y * b.x

/-- 3-D point in the shared scene frame. -/
structure Pt3 where
  x : ℝ
  y : ℝ
  z : ℝ

noncomputable instance : Sub Pt3 := ⟨fun a b => ⟨a.x - b.x, a.y - b.y, a.z - b.z⟩⟩

@[simp] theorem Pt3.sub3_mk (a b c d e f : ℝ) :
    (⟨a, b, c⟩ - ⟨d, e, f⟩ : Pt3) = ⟨a - d, b - e, c - f⟩ := rfl

/-- Euclidean norm of a 3-D vector (`numpy.linalg.norm`). -/
noncomputable def norm3 (v : Pt3) : ℝ := Real.sqrt (v.x ^ 2 + v.y ^ 2 + v.z ^ 2)

/-- Evaluation helper: `Real.sqrt a = b` once `b ^ 2 = a` and `0 ≤ b`. -/
theorem sqrt_val {a b : ℝ} (hb : 0 ≤ b) (h : b ^ 2 = a) : Real.sqrt a = b := by
  rw [← h]; exact Real.sqrt_sq hb

theorem norm2_x (a : ℝ) : norm2 ⟨a, 0⟩ = |a| := by
  have : a ^ 2 + (0:ℝ) ^ 2 = a ^ 2 := by ring
  rw [norm2, this, Real.sqrt_sq_eq_abs]

theorem norm3_x (a : ℝ) : norm3 ⟨a, 0, 0⟩ = |a| := by
  have : a ^ 2 + (0:ℝ) ^ 2 + (0:ℝ) ^ 2 = a ^ 2 := by ring
  rw [norm3, this, Real.sqrt_sq_eq_abs]

theorem norm2_nonneg (v : Pt2) : 0 ≤ norm2 v := Real.sqrt_nonneg _

theorem norm2_smul (c : ℝ) (v : Pt2) : norm2 (c • v) = |c| * norm2 v := by
  have h : (c * v.x) ^ 2 + (c * v.y) ^ 2 = c ^ 2 * (v.x ^ 2 + v.y ^ 2) := by ring
  rw [norm2, Pt2.smul_def, h]
  rw [Real.sqrt_mul (sq_nonneg c), Real.sqrt_sq_eq_abs, norm2]

theorem norm2_zero : norm2 ⟨0, 0⟩ = 0 := by
  rw [norm2_x]; exact abs_zero

/-- A vector of positive norm is non-zero in some component. -/
theorem norm2_pos_ne (v : Pt2) (h : 0 < norm2 v) : v.x ≠ 0 ∨ v.y ≠ 0 := by
  by_contra hc
  push_neg at hc
  obtain ⟨hx, hy⟩ := hc
  have : v = ⟨0, 0⟩ := by cases v; simp_all
  rw [this, norm2_zero] at h
  exact lt_irrefl 0 h

/-- Modelled from the spec: `close_enough(f1, f2, tol)` of the (absent)
generic-utils module — the two values agree within a strict tolerance. -/
def close_enough (a b tol : ℝ) : Prop := |a - b| < tol

noncomputable instance (a b tol : ℝ) : Decidable (close_enough a b tol) := by
  unfold close_enough; infer_instance

/-- Errors raised by the embedded code (`RuntimeError` / `ValueError` in the
source, distinguished here by raise site). -/
inductive Err
  | fractionIncorrect
  | topologyMismatch
  | projectionFailed
  | sidesDoNotMatch
  | invalidDartPosition
  | convergenceFailure
deriving DecidableEq

/-- Modelled from the spec: an `Edge` (edge.py is not among the provided
sources) is a directed segment from `start` to `stop` (the source attribute
is `end`, a Lean keyword), an optional control point stored relative to the
chord (fraction-along, perpendicular-offset), and a stable `geometric_id`
(`gid`). -/
structure Edge where
  start : Pt2
  stop : Pt2
  cp : Option (ℝ × ℝ)
  gid : ℕ

/-- Modelled from the spec: absolute position of a relative control point
(fraction along the chord plus perpendicular offset, both scaled by the
chord vector). -/
noncomputable def Edge.cpAbs (e : Edge) (c : ℝ × ℝ) : Pt2 :=
  e.start + c.1 • (e.stop - e.start) +
    c.2 • (⟨-(e.stop - e.start).y, (e.stop - e.start).x⟩ : Pt2)

/-- Modelled from the spec: `Edge.length()` — Euclidean chord length for a
straight edge; for a curved (quadratic Bézier) edge the spec allows "numeric
arc-length or chord-based approximation" — modelled by the inscribed
two-segment polyline through the curve point at parameter 1/2
(`(start + 2·control + stop)/4`), a lower bound of the true arc length. -/
noncomputable def Edge.length (e : Edge) : ℝ :=
  match e.cp with
  | none => norm2 (e.stop - e.start)
  | some c =>
    let m : Pt2 := (1/4 : ℝ) • (e.start + (2:ℝ) • e.cpAbs c + e.stop)
    norm2 (m - e.start) + norm2 (e.stop - m)

@[simp] theorem Edge.length_straight (a b : Pt2) (g : ℕ) :
    (⟨a, b, none, g⟩ : Edge).length = norm2 (b - a) := rfl

/-- Modelled from the spec: a panel has a `name` and a rigid placement
mapping its local 2-D frame into the shared 3-D scene frame; only the
induced map on points (`point_to_3D`) is consumed by the stitching code, so
the placement is embedded as that map. -/
structure Panel where
  name : String
  point_to_3D : Pt2 → Pt3

/-- Modelled from the spec: an interface is an ordered list of
(panel, edge) references; the parallel `panel` / `edges` lists of the source
are embedded as a single list of pairs (the source keeps them index-aligned,
duplicating the panel reference when an edge is subdivided). -/
structure Interface where
  entries : List (Panel × Edge)

/-- The interface's plain edge list. -/
def Interface.edges (i : Interface) : List Edge := i.entries.map Prod.snd

/-- Modelled from the spec (§4.3): chord vector of an edge sequence, from
the first edge's start to the last edge's end. -/
noncomputable def chordOf (es : List (Panel × Edge)) : Pt2 :=
  (match es.getLast? with
   | some pe => pe.2.stop
   | none => ⟨0, 0⟩) -
  (match es.head? with
   | some pe => pe.2.start
   | none => ⟨0, 0⟩)

/-- Modelled from the spec (§4.3): the length of one `projecting_edges()`
edge — the projection of the edge's span onto the interface chord. -/
noncomputable def projLen (ch : Pt2) (e : Edge) : ℝ :=
  |dot2 (e.stop - e.start) ch| / norm2 ch

/-- `projecting_edges().lengths()` of an interface. -/
noncomputable def projLens (i : Interface) : List ℝ :=
  i.entries.map fun pe => projLen (chordOf i.entries) pe.2

/-- `EdgeSeqFactory.from_verts` (edge_factory.py lines 18-32), restricted to
`loop = False`, the only form the stitching code uses: chain straight edges
through the given vertices.  Fresh geometric ids are drawn from `supply`
(Python assigns a fresh object identity to every new `Edge`).  The
`isChained()` sanity check of the source cannot fail here because
consecutive edges share their endpoint by construction. -/
noncomputable def from_verts (supply : ℕ) : List Pt2 → List Edge × ℕ
  | v0 :: v1 :: rest =>
    let r := from_verts (supply + 1) (v1 :: rest)
    (⟨v0, v1, none, supply⟩ :: r.1, r.2)
  | _ => ([], supply)

/-- Interior vertices of `from_fractions` (edge_factory.py lines 49-54):
starting from the previous vertex, step by `frac[i] • vec` for every
fraction except the last. -/
noncomputable def mid_verts (prev vec : Pt2) : List ℝ → List Pt2
  | [] => []
  | f :: fs => (prev + f • vec) :: mid_verts (prev + f • vec) vec fs

/-- `EdgeSeqFactory.from_fractions` (edge_factory.py lines 34-57): absolute
values of the fractions are taken first; the construction fails
(`RuntimeError`) iff the absolutised fractions do not sum to 1 within 1e-4;
otherwise straight sub-edges are chained from `start` towards `stop` with
the interior vertices at the cumulative fractions, the final vertex being
`stop` itself. -/
noncomputable def from_fractions (supply : ℕ) (start stop : Pt2) (frac : List ℝ) :
    Except Err (List Edge × ℕ) :=
  let afrac := frac.map fun f => |f|
  if close_enough afrac.sum 1 (1/10000) then
    let vec := stop - start
    .ok (from_verts supply (start :: (mid_verts start vec afrac.dropLast ++ [stop])))
  else .error .fractionIncorrect

/-- 3-D image of an interface's first edge's start under the first panel's
placement (`self.intN.panel[0].point_to_3D(self.intN.edges[0].start)`,
connector.py lines 33-34). -/
noncomputable def startPt3 (i : Interface) : Pt3 :=
  match i.entries.head? with
  | some pe => pe.1.point_to_3D pe.2.start
  | none => ⟨0, 0, 0⟩

/-- 3-D image of an interface's last edge's end under the last panel's
placement (connector.py lines 36-37). -/
noncomputable def endPt3 (i : Interface) : Pt3 :=
  match i.entries.getLast? with
  | some pe => pe.1.point_to_3D pe.2.stop
  | none => ⟨0, 0, 0⟩

/-- `stitch_dist_straight` (connector.py line 39). -/
noncomputable def straightDist (i1 i2 : Interface) : ℝ :=
  norm3 (startPt3 i2 - startPt3 i1) + norm3 (endPt3 i2 - endPt3 i1)

/-- `stitch_dist_reverse` (connector.py line 40). -/
noncomputable def reverseDist (i1 i2 : Interface) : ℝ :=
  norm3 (startPt3 i2 - endPt3 i1) + norm3 (endPt3 i2 - startPt3 i1)

/-- `StitchingRule.isTraversalMatching` (connector.py lines 27-45): the 3-D
corner-to-corner comparison runs only when the first interface has more
than one edge; otherwise the method falls through to `return True`. -/
noncomputable def isTraversalMatching (i1 i2 : Interface) : Bool :=
  if 1 < i1.entries.length then
    if reverseDist i1 i2 < straightDist i1 i2 then false else true
  else true

/-- The subdivision loop of `StitchingRule._match_side_count`
(connector.py lines 88-124), as a recursion over the remaining interface
entries (`rest`, the entries from the current `in_id` on) and the remaining
`to_add` lengths; `done` holds the already traversed entries and `ci` / `ca`
are `covered_init` / `covered_added`.  The chord used by
`projecting_edges()` is recomputed from the whole current entry list each
step, as in the source (subdivision preserves the interface's outer
endpoints, so it is in fact constant).  When a required boundary falls
strictly inside the current edge, the edge is substituted by the two
sub-edges of `from_fractions` in both the interface and (line 113, mirrored
by the shared entry) the panel, the panel reference being duplicated
(line 115); `covered_init` then advances by the actual length of the first
sub-edge (line 120).  Exhausting the edges with `to_add` entries left
raises `Projection failed` (line 124). -/
noncomputable def mscLoop (tol : ℝ) (supply : ℕ) (done rest : List (Panel × Edge))
    (toAdd : List ℝ) (ci ca : ℝ) : Except Err (List (Panel × Edge) × ℕ) :=
  match rest, toAdd with
  | rest, [] => .ok (done ++ rest, supply)
  | [], _ :: _ => .error .projectionFailed
  | (p, e) :: rest', t :: ts =>
    let ch := chordOf (done ++ (p, e) :: rest')
    let ni := ci + projLen ch e
    let na := ca + t
    if close_enough ni na tol then
      mscLoop tol supply (done ++ [(p, e)]) rest' ts ni na
    else if ni < na then
      mscLoop tol supply (done ++ [(p, e)]) rest' (t :: ts) ni ca
    else
      let frac := (projLen ch e - (ni - na)) / projLen ch e
      match from_fractions supply e.start e.stop [frac, 1 - frac] with
      | .error err => .error err
      | .ok ([s1, s2], supply') =>
        mscLoop tol supply' (done ++ [(p, s1)]) ((p, s2) :: rest') ts (ci + s1.length) na
      | .ok _ => .error .projectionFailed
  termination_by rest.length + toAdd.length
  decreasing_by all_goals (simp only [List.length_cons]; omega)

/-- `StitchingRule._match_side_count` (connector.py lines 74-124). -/
noncomputable def match_side_count (inter : Interface) (toAdd : List ℝ) (tol : ℝ)
    (supply : ℕ) : Except Err (Interface × ℕ) :=
  (mscLoop tol supply [] inter.entries toAdd 0 0).map fun r => (⟨r.1⟩, r.2)

/-- `StitchingRule.match_edge_count` (connector.py lines 48-72): projected
length lists of both sides, each reversed when the traversal directions do
not match; a topology-mismatch error (`RuntimeError`, line 69) when the two
sums disagree beyond `tol`, raised before any subdivision; otherwise each
side is subdivided against the other side's length list. -/
noncomputable def match_edge_count (i1 i2 : Interface) (tol : ℝ) (supply : ℕ) :
    Except Err (Interface × Interface × ℕ) :=
  let lengths1 := if isTraversalMatching i1 i2 then projLens i1 else (projLens i1).reverse
  let lengths2 := if isTraversalMatching i1 i2 then projLens i2 else (projLens i2).reverse
  if close_enough lengths1.sum lengths2.sum tol then
    match match_side_count i1 lengths2 tol supply with
    | .error err => .error err
    | .ok (i1', s1) =>
      match match_side_count i2 lengths1 tol s1 with
      | .error err => .error err
      | .ok (i2', s2) => .ok (i1', i2', s2)
  else .error .topologyMismatch

/-- One endpoint of a stitch record: panel name and edge `geometric_id`
(connector.py lines 137-147). -/
structure StitchEnd where
  panel : String
  edge : ℕ
deriving DecidableEq

/-- Entry `k` of an interface as a stitch-record endpoint. -/
def stitchEndAt (i : Interface) (k : ℕ) : StitchEnd :=
  match i.entries.get? k with
  | some pe => ⟨pe.1.name, pe.2.gid⟩
  | none => ⟨"", 0⟩

/-- `StitchingRule`: binds exactly two interfaces. -/
structure StitchingRule where
  int1 : Interface
  int2 : Interface

/-- `StitchingRule.assembly` (connector.py lines 127-148): defensive count
check, then the positional zip of the two edge lists, the second side
traversed in reverse index order when the traversal directions mismatch. -/
noncomputable def StitchingRule.assembly (r : StitchingRule) :
    Except Err (List (StitchEnd × StitchEnd)) :=
  if r.int1.entries.length = r.int2.entries.length then
    let swap := !(isTraversalMatching r.int1 r.int2)
    .ok ((List.range r.int1.entries.length).map fun i =>
      (stitchEndAt r.int1 i,
       stitchEndAt r.int2 (if swap then r.int2.entries.length - 1 - i else i)))
  else .error .sidesDoNotMatch

/-- `StitchingRule.__init__` (connector.py lines 10-21): store the two
interfaces; when their edge counts differ, run `match_edge_count` (with its
default tolerance 0.1) before the constructor returns. -/
noncomputable def mkStitchingRule (i1 i2 : Interface) (supply : ℕ) :
    Except Err (StitchingRule × ℕ) :=
  if i1.entries.length = i2.entries.length then .ok (⟨i1, i2⟩, supply)
  else (match_edge_count i1 i2 (1/10) supply).map fun r => (⟨r.1, r.2.1⟩, r.2.2)

/-- `Stitches.__init__` (connector.py lines 155-158): build a
`StitchingRule` for every pair, in order. -/
noncomputable def mkStitches (pairs : List (Interface × Interface)) (supply : ℕ) :
    Except Err (List StitchingRule × ℕ) :=
  match pairs with
  | [] => .ok ([], supply)
  | (i1, i2) :: rest =>
    match mkStitchingRule i1 i2 supply with
    | .error e => .error e
    | .ok (r, s1) =>
      match mkStitches rest s1 with
      | .error e => .error e
      | .ok (rs, s2) => .ok (r :: rs, s2)

/-- `Stitches.append` (connector.py lines 160-161). -/
noncomputable def stitchesAppend (rules : List StitchingRule)
    (pair : Interface × Interface) (supply : ℕ) :
    Except Err (List StitchingRule × ℕ) :=
  (mkStitchingRule pair.1 pair.2 supply).map fun r => (rules ++ [r.1], r.2)

/-- `np.sqrt` as the stitching geometry sees it: a real square root for a
non-negative radicand, a silent NaN (here `none`) for a negative one — NumPy
emits a warning and returns NaN instead of raising. -/
noncomputable def npSqrt (x : ℝ) : Option ℝ :=
  if 0 ≤ x then some (Real.sqrt x) else none

/-- `EdgeSeqFactory.dart_shape` (edge_factory.py lines 261-266), recorded by
its vertex chain `[0,0] → [width/2, -depth_perp] → [width,0]` (the result of
`from_verts` is the two-edge chain through exactly these vertices).  The
apex ordinate is `-np.sqrt(depth² - (width/2)²)`: `none` models the NaN the
source produces when the radicand is negative — the source contains no
check and no raise for that case. -/
noncomputable def dart_shape (width depth : ℝ) : List (ℝ × Option ℝ) :=
  let dp := npSqrt (depth ^ 2 - (width / 2) ^ 2)
  [(0, some 0), (width / 2, dp.map fun r => -r), (width, some 0)]

/-- `_abs_to_rel_2d` (edge_factory.py lines 306-328). -/
noncomputable def abs_to_rel_2d (start stop point : Pt2) : ℝ × ℝ :=
  let edge := stop - start
  let edge_len := norm2 edge
  let point_vec := point - start
  let projected_len := dot2 edge point_vec / edge_len
  let c0 := projected_len / edge_len
  let vert_comp := point_vec - c0 • edge
  (c0, norm2 vert_comp / edge_len * (-(Real.sign (cross2 point_vec edge))))

/-- `_rel_to_abs_coords` (edge_factory.py lines 293-304). -/
noncomputable def rel_to_abs_coords (start stop : Pt2) (vrel : ℝ × ℝ) : Pt2 :=
  let vec := stop - start
  let vecu := (1 / norm2 vec) • vec
  let vec_perp : Pt2 := ⟨-vecu.y, vecu.x⟩
  start + vrel.1 • vecu + vrel.2 • vec_perp

/-- Result of a `scipy.optimize.minimize` call for `curve_from_extreme`:
the optimiser is external to the repository, so it enters the embedding as
data — the found control-point ordinate `x` and the reported `success`
flag. -/
structure CurveMin where
  x : ℝ
  success : Bool

/-- `EdgeSeqFactory.curve_from_extreme` (edge_factory.py lines 268-289):
the returned `CurveEdge` takes its relative control point from
`[rel_target[0], out.x]` unconditionally — when the optimiser reports
failure the source only prints a warning (lines 282-285) and still returns
this best-effort curve; there is no raise on that path. -/
noncomputable def curve_from_extreme (supply : ℕ) (start stop target : Pt2)
    (out : CurveMin) : Edge :=
  let rel_target := abs_to_rel_2d start stop target
  ⟨start, stop, some (rel_target.1, out.x), supply⟩

/-- Result of the `scipy.optimize.minimize` call of `side_with_dart_by_len`:
the solved dart points `p0`, `tip`, `p1` (the 6-vector `out.x`) and the
final residual `fval` (`out.fun`). -/
structure DartMin where
  p0 : Pt2
  tip : Pt2
  p1 : Pt2
  fval : ℝ

/-- Reflection of a point across the line through `a` and `b` — modelled
from the spec for the absent `EdgeSequence.reflect` used at
edge_factory.py line 248. -/
noncomputable def reflectAcross (a b p : Pt2) : Pt2 :=
  let u := (1 / norm2 (b - a)) • (b - a)
  let w := p - a
  a + ((2 * dot2 w u) • u - w)

/-- `EdgeSeqFactory.side_with_dart_by_len` (edge_factory.py lines 192-259),
with the external `scipy` minimisation entering as `out`; the result is the
vertex chain `start → p0 → tip → p1 → stop` of the returned edge sequence.
The source raises `ValueError` when `d0 + d1 = target_len` reaches the edge
length (line 222-223), and raises `ValueError` when the solver residual
misses `close_enough(out.fun, tol=tol)` (lines 235-237) — a convergence
failure is an error, not a best-effort result.  The dart triple is
reflected across the base line when the solved tip lies on the wrong
side (lines 244-248). -/
noncomputable def side_with_dart_by_len (start stop : Pt2)
    (target_len dart_position : ℝ) (right : Bool) (out : DartMin) (tol : ℝ) :
    Except Err (List Pt2) :=
  let L := norm2 (start - stop)
  let d0 := dart_position
  let d1 := target_len - dart_position
  if L ≤ d0 + d1 then .error .invalidDartPosition
  else if close_enough out.fval 0 tol then
    let right_position := Real.sign (cross2 (stop - start) (out.tip - start)) = -1
    if (!right && decide right_position) || (right && !(decide right_position)) then
      .ok [start, reflectAcross start stop out.p0, reflectAcross start stop out.tip,
           reflectAcross start stop out.p1, stop]
    else
      .ok [start, out.p0, out.tip, out.p1, stop]
  else .error .convergenceFailure

/-- The `long_side` value of `EdgeSeqFactory.side_with_dart_by_width`
(edge_factory.py lines 110-126): the distance from `start` to the shifted
end of the edge once the dart is inserted. -/
noncomputable def dartWidthLongSide (start stop : Pt2)
    (width depth dart_position : ℝ) : ℝ :=
  let L := norm2 (stop - start)
  let d0 := dart_position
  let d1 := L - d0
  let depth_perp := Real.sqrt (depth ^ 2 - (width / 2) ^ 2)
  let delta_l := depth * width / (2 * depth_perp)
  let side0 := d0 + delta_l
  let side1 := d1 + delta_l
  let alpha := |Real.arctan (width / 2 / depth_perp)|
  let top_angle := Real.pi - 2 * alpha
  Real.sqrt (side0 ^ 2 + side1 ^ 2 - 2 * side0 * side1 * Real.cos top_angle)

/-- The caller-visible effect of `EdgeSeqFactory.side_with_dart_by_width` on
its `end` argument: line 155 of edge_factory.py overwrites the caller's
`end` buffer in place (`end[:] = _rel_to_abs_coords(v0, v1,
np.array([long_side, 0]))`).  This definition returns the content of that
buffer right after line 155, guarded by the `dart_position` validity check
of lines 116-117 (`ValueError` when `d1 < 0`).  The remaining body
(lines 157-190) assembles the dart edge sequence and, under the default
`modify='both'` / `opening_angle=180`, translates that sequence — it never
restores the caller's `end` to its original value. -/
noncomputable def side_with_dart_by_width_end (start stop : Pt2)
    (width depth dart_position : ℝ) : Except Err Pt2 :=
  let L := norm2 (stop - start)
  if L - dart_position < 0 then .error .invalidDartPosition
  else .ok (rel_to_abs_coords start stop
    (dartWidthLongSide start stop width depth dart_position, 0))

/-! ### Concrete scenarios and evaluation helpers -/

/-- Panel "A", placed by the identity embedding of the plane into space. -/
noncomputable def panelA : Panel := ⟨"A", fun p => ⟨p.x, p.y, 0⟩⟩

/-- Panel "B", placed by the identity embedding of the plane into space. -/
noncomputable def panelB : Panel := ⟨"B", fun p => ⟨p.x, p.y, 0⟩⟩

/-- Straight horizontal edge from `(a,0)` to `(b,0)` with geometric id `g`. -/
noncomputable def hedge (a b : ℝ) (g : ℕ) : Edge := ⟨⟨a, 0⟩, ⟨b, 0⟩, none, g⟩

theorem hedge_length (a b : ℝ) (g : ℕ) : (hedge a b g).length = |b - a| := by
  have h : (⟨b, 0⟩ - ⟨a, 0⟩ : Pt2) = ⟨b - a, 0⟩ := by simp
  simp only [Edge.length, hedge, h, norm2_x]

theorem hedge_projLen (a b c : ℝ) (g : ℕ) (hc : 0 < c) :
    projLen ⟨c, 0⟩ (hedge a b g) = |b - a| := by
  simp only [projLen, hedge, dot2, Pt2.sub_mk, norm2_x]
  rw [show (b - a) * c + (0 - 0) * 0 = (b - a) * c by ring]
  rw [abs_mul, abs_of_pos hc]
  field_simp


/-- C1 scenario, side A: a single edge of projected length 10, owned by
panel "A". -/
noncomputable def iA : Interface := ⟨[(panelA, hedge 0 10 0)]⟩

/-- C1 scenario, side B: two edges of projected lengths 4 and 6 in
traversal order, owned by panel "B". -/
noncomputable def iB : Interface := ⟨[(panelB, hedge 0 4 1), (panelB, hedge 4 10 2)]⟩

/-- Side A after matching: the single edge split at fraction 0.4 into
sub-edges of lengths 4 and 6 carrying the fresh ids 3 and 4. -/
noncomputable def iA2 : Interface := ⟨[(panelA, hedge 0 4 3), (panelA, hedge 4 10 4)]⟩

theorem ff_split_10 (supply : ℕ) : from_fractions supply ⟨0, 0⟩ ⟨10, 0⟩ [2/5, 3/5] =
    .ok ([hedge 0 4 supply, hedge 4 10 (supply + 1)], supply + 2) := by
  simp only [from_fractions]
  rw [if_pos (by norm_num [close_enough, abs_of_nonneg])]
  simp [mid_verts, from_verts, hedge]
  norm_num [abs_of_nonneg]

@[simp] theorem hedge_start (a b : ℝ) (g : ℕ) : (hedge a b g).start = ⟨a, 0⟩ := rfl

@[simp] theorem hedge_stop (a b : ℝ) (g : ℕ) : (hedge a b g).stop = ⟨b, 0⟩ := rfl

theorem msc_C1_A : mscLoop (1/10) 3 [] [(panelA, hedge 0 10 0)] [4, 6] 0 0 =
    .ok ([(panelA, hedge 0 4 3), (panelA, hedge 4 10 4)], 5) := by
  have hch : chordOf [(panelA, hedge 0 10 0)] = ⟨10, 0⟩ := by
    simp [chordOf]
  have hp10 : projLen ⟨10, 0⟩ (hedge 0 10 0) = 10 := by
    rw [hedge_projLen 0 10 10 0 (by norm_num)]; norm_num [abs_of_nonneg]
  have hch2 : chordOf [(panelA, hedge 0 4 3), (panelA, hedge 4 10 4)] = ⟨10, 0⟩ := by
    simp [chordOf]
  have hp6 : projLen ⟨10, 0⟩ (hedge 4 10 4) = 6 := by
    rw [hedge_projLen 4 10 10 4 (by norm_num)]; norm_num [abs_of_nonneg]
  have hl4 : (hedge 0 4 3).length = 4 := by
    rw [hedge_length]; norm_num [abs_of_nonneg]
  rw [mscLoop]
  simp only [List.nil_append, hch, hp10, hedge_start, hedge_stop]
  rw [if_neg (by norm_num [close_enough, abs_sub_lt_iff])]
  rw [if_neg (by norm_num)]
  norm_num
  rw [ff_split_10 3]
  simp only [hl4]
  rw [mscLoop]
  simp only [List.cons_append, List.nil_append, hch2, hp6]
  rw [if_pos (by norm_num [close_enough, abs_sub_lt_iff])]
  rw [mscLoop]
  simp

theorem msc_4_6_vs_10 (supply g1 g2 : ℕ) (P : Panel) :
    mscLoop (1/10) supply [] [(P, hedge 0 4 g1), (P, hedge 4 10 g2)] [10] 0 0 =
    .ok ([(P, hedge 0 4 g1), (P, hedge 4 10 g2)], supply) := by
  have hch : chordOf [(P, hedge 0 4 g1), (P, hedge 4 10 g2)] = ⟨10, 0⟩ := by
    simp [chordOf]
  have hp4 : projLen ⟨10, 0⟩ (hedge 0 4 g1) = 4 := by
    rw [hedge_projLen 0 4 10 g1 (by norm_num)]; norm_num [abs_of_nonneg]
  have hp6 : projLen ⟨10, 0⟩ (hedge 4 10 g2) = 6 := by
    rw [hedge_projLen 4 10 10 g2 (by norm_num)]; norm_num [abs_of_nonneg]
  rw [mscLoop]
  simp only [List.nil_append, hch, hp4]
  rw [if_neg (by norm_num [close_enough, abs_sub_lt_iff])]
  rw [if_pos (by norm_num)]
  rw [mscLoop]
  simp only [List.cons_append, List.nil_append, hch, hp6]
  rw [if_pos (by norm_num [close_enough, abs_sub_lt_iff])]
  rw [mscLoop]
  simp

theorem mec_C1 : match_edge_count iA iB (1/10) 3 = .ok (iA2, iB, 5) := by
  have htm : isTraversalMatching iA iB = true := by
    simp [isTraversalMatching, iA]
  have hchA : chordOf [(panelA, hedge 0 10 0)] = ⟨10, 0⟩ := by simp [chordOf]
  have hchB : chordOf [(panelB, hedge 0 4 1), (panelB, hedge 4 10 2)] = ⟨10, 0⟩ := by
    simp [chordOf]
  have hl1 : projLens iA = [10] := by
    simp only [projLens, iA, List.map_cons, List.map_nil, hchA]
    rw [hedge_projLen 0 10 10 0 (by norm_num)]; norm_num [abs_of_nonneg]
  have hl2 : projLens iB = [4, 6] := by
    simp only [projLens, iB, List.map_cons, List.map_nil, hchB]
    rw [hedge_projLen 0 4 10 1 (by norm_num), hedge_projLen 4 10 10 2 (by norm_num)]
    norm_num [abs_of_nonneg]
  simp only [match_edge_count, htm, if_true, hl1, hl2]
  rw [if_pos (by norm_num [close_enough, abs_sub_lt_iff])]
  simp only [match_side_count, iA, iB]
  rw [msc_C1_A]
  simp only [Except.map]
  rw [msc_4_6_vs_10 5 1 2 panelB]
  simp [iA2, iB]

theorem trav_C1 : isTraversalMatching iA2 iB = true := by
  have hs1 : startPt3 iA2 = ⟨0, 0, 0⟩ := by simp [startPt3, iA2, panelA, hedge]
  have hs2 : startPt3 iB = ⟨0, 0, 0⟩ := by simp [startPt3, iB, panelB, hedge]
  have he1 : endPt3 iA2 = ⟨10, 0, 0⟩ := by simp [endPt3, iA2, panelA, hedge]
  have he2 : endPt3 iB = ⟨10, 0, 0⟩ := by simp [endPt3, iB, panelB, hedge]
  have hr : reverseDist iA2 iB = 20 := by
    simp only [reverseDist, hs1, hs2, he1, he2, Pt3.sub3_mk]
    norm_num [norm3_x, abs_of_nonneg, abs_of_nonpos]
  have hst : straightDist iA2 iB = 0 := by
    simp only [straightDist, hs1, hs2, he1, he2, Pt3.sub3_mk]
    norm_num [norm3_x]
  simp only [isTraversalMatching, hr, hst]
  rw [if_pos (show 1 < iA2.entries.length by simp [iA2])]
  norm_num

theorem asm_C1 : StitchingRule.assembly ⟨iA2, iB⟩ =
    .ok [(⟨"A", 3⟩, ⟨"B", 1⟩), (⟨"A", 4⟩, ⟨"B", 2⟩)] := by
  simp only [StitchingRule.assembly, trav_C1]
  rw [if_pos (by simp [iA2, iB])]
  simp [iA2, iB, stitchEndAt, List.range_succ, panelA, panelB, hedge]

/-- C1: for interface A (one edge of projected length 10) and interface B
(edges of projected lengths 4 and 6 in traversal order, traversal
matching), `match_edge_count` splits A's single edge at fraction 0.4 — the
new vertex is `start + 0.4 • (stop - start)` — into sub-edges of lengths 4
and 6 in order, leaves B untouched, and `assembly()` returns exactly two
stitch records, the first pairing A's first new edge (id 3) with B's first
edge (id 1), the second pairing A's second new edge (id 4) with B's second
edge (id 2). -/
theorem claim_C1 :
    match_edge_count iA iB (1/10) 3 = .ok (iA2, iB, 5) ∧
    iA2.edges.map Edge.length = [4, 6] ∧
    iA2.edges.map Edge.start =
      [⟨0, 0⟩, (⟨0, 0⟩ : Pt2) + (2/5 : ℝ) • ((⟨10, 0⟩ : Pt2) - (⟨0, 0⟩ : Pt2))] ∧
    StitchingRule.assembly ⟨iA2, iB⟩ =
      .ok [(⟨"A", 3⟩, ⟨"B", 1⟩), (⟨"A", 4⟩, ⟨"B", 2⟩)] := by
  refine ⟨mec_C1, ?_, ?_, asm_C1⟩
  · simp [iA2, Interface.edges, hedge_length]
    norm_num [abs_of_nonneg]
  · simp [iA2, Interface.edges, hedge]
    norm_num

/-- `List.sum` is invariant under reversal, hence the projected sums
compared by `match_edge_count` do not depend on the traversal branch. -/
theorem projSum_reverse (l : List ℝ) : l.reverse.sum = l.sum := List.sum_reverse l

/-- C2: whenever the total projected lengths of the two interfaces differ
by more than the tolerance, `match_edge_count` raises the topology-mismatch
error; the check precedes both `_match_side_count` calls, so the error is
returned with no subdivision performed on either interface (in this
functional embedding: no updated interfaces are produced at all). -/
theorem claim_C2 (i1 i2 : Interface) (tol : ℝ) (supply : ℕ)
    (h : tol < |(projLens i1).sum - (projLens i2).sum|) :
    match_edge_count i1 i2 tol supply = .error .topologyMismatch := by
  simp only [match_edge_count]
  by_cases htm : isTraversalMatching i1 i2
  · rw [if_pos htm, if_pos htm, if_neg]
    intro hc
    rw [close_enough] at hc
    exact absurd hc (not_lt.mpr (le_of_lt h))
  · rw [if_neg htm, if_neg htm, if_neg]
    intro hc
    rw [close_enough, projSum_reverse, projSum_reverse] at hc
    exact absurd hc (not_lt.mpr (le_of_lt h))

/-- Witness scenario for C2: single straight edges of projected lengths 10
and 15 under identity placements. -/
noncomputable def iC2a : Interface := ⟨[(panelA, hedge 0 10 6)]⟩

/-- Second interface of the C2 witness scenario. -/
noncomputable def iC2b : Interface := ⟨[(panelB, hedge 0 15 7)]⟩

/-- Witness for C2 at a concrete input: projected sums 10 versus 15 differ
by more than 0.1 and `match_edge_count` returns the topology-mismatch
error. -/
theorem claim_C2_witness :
    (1/10 : ℝ) < |(projLens iC2a).sum - (projLens iC2b).sum| ∧
    match_edge_count iC2a iC2b (1/10) 8 = .error .topologyMismatch := by
  have hla : projLens iC2a = [10] := by
    have hch : chordOf [(panelA, hedge 0 10 6)] = ⟨10, 0⟩ := by simp [chordOf]
    simp only [projLens, iC2a, List.map_cons, List.map_nil, hch]
    rw [hedge_projLen 0 10 10 6 (by norm_num)]; norm_num [abs_of_nonneg]
  have hlb : projLens iC2b = [15] := by
    have hch : chordOf [(panelB, hedge 0 15 7)] = ⟨15, 0⟩ := by simp [chordOf]
    simp only [projLens, iC2b, List.map_cons, List.map_nil, hch]
    rw [hedge_projLen 0 15 15 7 (by norm_num)]; norm_num [abs_of_nonneg]
  have hd : (1/10 : ℝ) < |(projLens iC2a).sum - (projLens iC2b).sum| := by
    rw [hla, hlb]; norm_num [abs_of_nonpos]
  exact ⟨hd, claim_C2 iC2a iC2b (1/10) 8 hd⟩

/-- C3 (amended): for non-negative `width`, `dart_shape` returns the
two-edge chain through `(0,0)`, `(width/2, -sqrt(depth² - (width/2)²))`,
`(width, 0)` whenever `depth ≥ width/2`; when `0 ≤ depth < width/2` it does
NOT raise — the source has no constraint check — but returns the same
two-edge chain with a NaN apex ordinate (`np.sqrt` of the negative
radicand, modelled as `none`). -/
theorem claim_C3 (width depth : ℝ) (hw : 0 ≤ width) :
    (width / 2 ≤ depth →
      dart_shape width depth =
        [(0, some 0),
         (width / 2, some (-Real.sqrt (depth ^ 2 - (width / 2) ^ 2))),
         (width, some 0)]) ∧
    (0 ≤ depth → depth < width / 2 →
      dart_shape width depth = [(0, some 0), (width / 2, none), (width, some 0)]) := by
  constructor
  · intro h
    have hrad : 0 ≤ depth ^ 2 - (width / 2) ^ 2 := by nlinarith
    simp [dart_shape, npSqrt, hrad]
  · intro hd h
    have hrad : depth ^ 2 - (width / 2) ^ 2 < 0 := by nlinarith
    simp [dart_shape, npSqrt, not_le.mpr hrad]

/-- Counterexample to C3 as stated: `dart_shape(10, 3)` (depth 3 below
width/2 = 5) does not raise any error — the embedded function, like the
source, has no failure path — and instead returns a three-vertex (two-edge)
shape whose apex ordinate is NaN. -/
theorem claim_C3_cex :
    dart_shape 10 3 = [(0, some 0), (5, none), (10, some 0)] ∧
    (dart_shape 10 3).length = 3 := by
  constructor
  · norm_num [dart_shape, npSqrt]
  · simp [dart_shape]

/-- Witness for C3 at the spec's concrete input: `dart_shape(6, 5)` has its
apex at `(3, -4)`. -/
theorem claim_C3_witness :
    dart_shape 6 5 = [(0, some 0), (3, some (-4)), (6, some 0)] := by
  have h := (claim_C3 6 5 (by norm_num)).1 (by norm_num)
  rw [h]
  have hs : Real.sqrt ((5:ℝ) ^ 2 - (6 / 2) ^ 2) = 4 :=
    sqrt_val (by norm_num) (by norm_num)
  rw [hs]
  norm_num

theorem Pt2.sub_shift (s e : Pt2) (c : ℝ) :
    e - (s + c • (e - s)) = (1 - c) • (e - s) := by
  cases s; cases e; simp; constructor <;> ring

theorem Pt2.add_shift (s e : Pt2) (c f : ℝ) :
    s + c • (e - s) + f • (e - s) = s + (c + f) • (e - s) := by
  cases s; cases e; simp; constructor <;> ring

theorem Pt2.add_sub_self (p w : Pt2) : p + w - p = w := by
  cases p; cases w; simp

theorem Pt2.add_zero_smul (s v : Pt2) : s + (0:ℝ) • v = s := by
  cases s; cases v; simp

/-- The edge chain built by `from_fractions` once the current vertex has
advanced to `s + c • (e - s)` and the fractions `fs` remain. -/
noncomputable def fracEdges (s e : Pt2) (c : ℝ) (fs : List ℝ) (supply : ℕ) :
    List Edge :=
  (from_verts supply ((s + c • (e - s)) ::
    (mid_verts (s + c • (e - s)) (e - s) fs.dropLast ++ [e]))).1

theorem frac_chain (s e : Pt2) (fs : List ℝ) : ∀ (c : ℝ) (supply : ℕ),
    fs ≠ [] → (∀ f ∈ fs, 0 < f) → c + fs.sum = 1 →
    (fracEdges s e c fs supply).map Edge.length =
      fs.map (fun f => f * norm2 (e - s)) ∧
    (∀ ed ∈ fracEdges s e c fs supply, ed.cp = none) ∧
    (fracEdges s e c fs supply).head?.map Edge.start = some (s + c • (e - s)) ∧
    (fracEdges s e c fs supply).getLast?.map Edge.stop = some e := by
  induction fs with
  | nil => intro c supply hne; exact absurd rfl hne
  | cons f fs ih =>
    intro c supply _ hpos hsum
    cases fs with
    | nil =>
      have hf : f = 1 - c := by
        have := hsum; simp at this; linarith
      have hlen : norm2 (e - (s + c • (e - s))) = f * norm2 (e - s) := by
        rw [Pt2.sub_shift, norm2_smul, ← hf,
          abs_of_pos (hpos f (by simp))]
      simp [fracEdges, mid_verts, from_verts, hlen]
    | cons f2 fs2 =>
      have hpos2 : ∀ g ∈ f2 :: fs2, 0 < g := fun g hg => hpos g (by simp [hg])
      have hsum2 : (c + f) + (f2 :: fs2).sum = 1 := by
        simp at hsum ⊢; linarith
      have ihx := ih (c + f) (supply + 1) (by simp) hpos2 hsum2
      have hq : s + c • (e - s) + f • (e - s) = s + (c + f) • (e - s) :=
        Pt2.add_shift s e c f
      have hstep : fracEdges s e c (f :: f2 :: fs2) supply =
          ⟨s + c • (e - s), s + (c + f) • (e - s), none, supply⟩ ::
            fracEdges s e (c + f) (f2 :: fs2) (supply + 1) := by
        simp only [fracEdges, List.dropLast, mid_verts, List.cons_append]
        rw [from_verts, hq]
      have hfirst : norm2 ((s + (c + f) • (e - s)) - (s + c • (e - s))) =
          f * norm2 (e - s) := by
        rw [← hq, Pt2.add_sub_self, norm2_smul, abs_of_pos (hpos f (by simp))]
      obtain ⟨ihlen, ihcp, ihhead, ihlast⟩ := ihx
      refine ⟨?_, ?_, ?_, ?_⟩
      · rw [hstep]
        simp only [List.map_cons, ihlen, Edge.length_straight, hfirst]
      · rw [hstep]
        intro ed hed
        rcases List.mem_cons.mp hed with h | h
        · rw [h]
        · exact ihcp ed h
      · rw [hstep]; simp
      · rw [hstep]
        rcases hrec : fracEdges s e (c + f) (f2 :: fs2) (supply + 1) with _ | ⟨ed, eds⟩
        · rw [hrec] at ihhead; simp at ihhead
        · rw [hrec] at ihlast
          rw [List.getLast?_cons_cons]
          exact ihlast

theorem map_abs_of_pos (fs : List ℝ) (h : ∀ f ∈ fs, 0 < f) :
    fs.map (fun f => |f|) = fs := by
  induction fs with
  | nil => simp
  | cons f fs ih =>
    simp only [List.map_cons]
    rw [abs_of_pos (h f (by simp)), ih (fun g hg => h g (by simp [hg]))]

theorem sum_map_mul (fs : List ℝ) (L : ℝ) :
    (fs.map (fun f => f * L)).sum = fs.sum * L := by
  induction fs with
  | nil => simp
  | cons f fs ih => simp [ih, add_mul]

/-- C4 (amended): `from_fractions` fails with the fraction error iff the
ABSOLUTISED fractions do not sum to 1 within 1e-4 — individual fractions
are never range-checked, so a fraction outside (0,1] does not by itself
cause a failure; and for every list of fractions each in (0,1] whose sum
is exactly 1, it returns a chain of straight sub-edges from `start` to
`stop` with lengths `fracs[i] * |stop-start|` in order, summing exactly to
the segment length. -/
theorem claim_C4 (supply : ℕ) (s e : Pt2) (fs : List ℝ) :
    ((∃ err, from_fractions supply s e fs = .error err) ↔
      ¬ close_enough (fs.map (fun f => |f|)).sum 1 (1/10000)) ∧
    ((∀ f ∈ fs, 0 < f ∧ f ≤ 1) → fs.sum = 1 →
      ∃ es s2, from_fractions supply s e fs = .ok (es, s2) ∧
        es.map Edge.length = fs.map (fun f => f * norm2 (e - s)) ∧
        (es.map Edge.length).sum = norm2 (e - s) ∧
        (∀ ed ∈ es, ed.cp = none) ∧
        es.head?.map Edge.start = some s ∧
        es.getLast?.map Edge.stop = some e) := by
  constructor
  · simp only [from_fractions]
    by_cases hc : close_enough (fs.map (fun f => |f|)).sum 1 (1/10000)
    · rw [if_pos hc]
      exact iff_of_false (by rintro ⟨err, h⟩; exact Except.noConfusion h)
        (not_not_intro hc)
    · rw [if_neg hc]
      exact iff_of_true ⟨.fractionIncorrect, rfl⟩ hc
  · intro hval hsum
    have hpos : ∀ f ∈ fs, 0 < f := fun f hf => (hval f hf).1
    have hne : fs ≠ [] := by
      intro h; rw [h] at hsum; simp at hsum
    have habs : fs.map (fun f => |f|) = fs := map_abs_of_pos fs hpos
    have hchain := frac_chain s e fs 0 supply hne hpos (by rw [zero_add, hsum])
    rw [Pt2.add_zero_smul] at hchain
    obtain ⟨hlen, hcp, hhead, hlast⟩ := hchain
    refine ⟨fracEdges s e 0 fs supply,
      (from_verts supply (s :: (mid_verts s (e - s) fs.dropLast ++ [e]))).2, ?_,
      hlen, ?_, hcp, hhead, hlast⟩
    · simp only [from_fractions, habs]
      rw [if_pos (by rw [hsum]; norm_num [close_enough])]
      have hv : fracEdges s e 0 fs supply =
          (from_verts supply (s :: (mid_verts s (e - s) fs.dropLast ++ [e]))).1 := by
        rw [fracEdges, Pt2.add_zero_smul]
      rw [hv]
    · rw [hlen, sum_map_mul, hsum, one_mul]

/-- Counterexample to C4 as stated: the fraction list `[-1/2, 1/2]` is
invalid in the claim's sense (`-1/2` lies outside `(0,1]`), yet
`from_fractions` succeeds — the source absolutises the fractions and only
checks their sum — returning two sub-edges that split the segment at its
midpoint. -/
theorem claim_C4_cex :
    ¬ (0 < -(1/2 : ℝ)) ∧
    from_fractions 0 ⟨0, 0⟩ ⟨10, 0⟩ [-(1/2), 1/2] =
      .ok ([⟨⟨0, 0⟩, ⟨5, 0⟩, none, 0⟩, ⟨⟨5, 0⟩, ⟨10, 0⟩, none, 1⟩], 2) := by
  refine ⟨by norm_num, ?_⟩
  simp only [from_fractions]
  rw [if_pos (by norm_num [close_enough, abs_of_nonneg, abs_of_nonpos])]
  simp [mid_verts, from_verts]
  norm_num [abs_of_nonpos, abs_of_nonneg]

/-- Witness for C4 at a concrete valid input: fractions `[2/5, 3/5]` on the
segment `(0,0) → (10,0)`. -/
theorem claim_C4_witness :
    (∀ f ∈ [(2:ℝ)/5, 3/5], 0 < f ∧ f ≤ 1) ∧ ([(2:ℝ)/5, 3/5].sum = 1) ∧
    (∃ es s2, from_fractions 7 ⟨0, 0⟩ ⟨10, 0⟩ [2/5, 3/5] = .ok (es, s2) ∧
      es.map Edge.length =
        [(2:ℝ)/5, 3/5].map (fun f => f * norm2 ((⟨10, 0⟩ : Pt2) - ⟨0, 0⟩)) ∧
      (es.map Edge.length).sum = norm2 ((⟨10, 0⟩ : Pt2) - ⟨0, 0⟩) ∧
      (∀ ed ∈ es, ed.cp = none) ∧
      es.head?.map Edge.start = some ⟨0, 0⟩ ∧
      es.getLast?.map Edge.stop = some ⟨10, 0⟩) := by
  refine ⟨?_, by norm_num, ?_⟩
  · intro f hf
    rcases List.mem_cons.mp hf with h | h
    · subst h; norm_num
    · simp at h; subst h; norm_num
  · exact (claim_C4 7 ⟨0, 0⟩ ⟨10, 0⟩ [2/5, 3/5]).2
      (by
        intro f hf
        rcases List.mem_cons.mp hf with h | h
        · subst h; norm_num
        · simp at h; subst h; norm_num)
      (by norm_num)

/-- C6 (amended): when the first interface has more than one edge,
`isTraversalMatching` returns false iff the total 3-D corner-to-corner
distance under the reversed pairing is strictly smaller than under the
straight pairing; but when the first interface has a single edge the
method skips the comparison entirely and always returns true, so the
equivalence does NOT hold regardless of edge count. -/
theorem claim_C6 (i1 i2 : Interface) :
    (1 < i1.entries.length →
      (isTraversalMatching i1 i2 = false ↔
        reverseDist i1 i2 < straightDist i1 i2)) ∧
    (i1.entries.length ≤ 1 → isTraversalMatching i1 i2 = true) := by
  constructor
  · intro h
    rw [isTraversalMatching, if_pos h]
    by_cases hlt : reverseDist i1 i2 < straightDist i1 i2
    · rw [if_pos hlt]; simp [hlt]
    · rw [if_neg hlt]; simp [hlt]
  · intro h
    rw [isTraversalMatching, if_neg (not_lt.mpr h)]

/-- Multi-edge interface for the C6 witness. -/
noncomputable def iT1 : Interface := ⟨[(panelA, hedge 0 5 30), (panelA, hedge 5 10 31)]⟩

/-- Partner interface for the C6 witness, declared in reversed physical
order. -/
noncomputable def iT2 : Interface := ⟨[(panelB, hedge 10 5 32), (panelB, hedge 5 0 33)]⟩

/-- Witness for C6: on a two-edge interface whose partner is declared in
reversed order, the reversed pairing is strictly closer and
`isTraversalMatching` indeed returns false. -/
theorem claim_C6_witness :
    1 < iT1.entries.length ∧
    (isTraversalMatching iT1 iT2 = false ↔
      reverseDist iT1 iT2 < straightDist iT1 iT2) ∧
    isTraversalMatching iT1 iT2 = false := by
  have h1 : (1:ℕ) < iT1.entries.length := by simp [iT1]
  have hiff := (claim_C6 iT1 iT2).1 h1
  have hs1 : startPt3 iT1 = ⟨0, 0, 0⟩ := by simp [startPt3, iT1, panelA, hedge]
  have hs2 : startPt3 iT2 = ⟨10, 0, 0⟩ := by simp [startPt3, iT2, panelB, hedge]
  have he1 : endPt3 iT1 = ⟨10, 0, 0⟩ := by simp [endPt3, iT1, panelA, hedge]
  have he2 : endPt3 iT2 = ⟨0, 0, 0⟩ := by simp [endPt3, iT2, panelB, hedge]
  have hr : reverseDist iT1 iT2 = 0 := by
    simp only [reverseDist, hs1, hs2, he1, he2, Pt3.sub3_mk]
    norm_num [norm3_x]
  have hs : straightDist iT1 iT2 = 20 := by
    simp only [straightDist, hs1, hs2, he1, he2, Pt3.sub3_mk]
    norm_num [norm3_x, abs_of_nonneg, abs_of_nonpos]
  exact ⟨h1, hiff, hiff.mpr (by rw [hr, hs]; norm_num)⟩

/-- Single-edge interface for the C6 counterexample. -/
noncomputable def iS1 : Interface := ⟨[(panelA, hedge 0 10 34)]⟩

/-- Partner of the C6 counterexample, physically reversed. -/
noncomputable def iS2 : Interface := ⟨[(panelB, hedge 10 0 35)]⟩

/-- Counterexample to C6 as stated: with a single-edge first interface the
reversed pairing is strictly closer (0 against 20), yet
`isTraversalMatching` returns true — the comparison only runs when the
first interface has more than one edge. -/
theorem claim_C6_cex :
    reverseDist iS1 iS2 < straightDist iS1 iS2 ∧
    isTraversalMatching iS1 iS2 = true := by
  have hs1 : startPt3 iS1 = ⟨0, 0, 0⟩ := by simp [startPt3, iS1, panelA, hedge]
  have hs2 : startPt3 iS2 = ⟨10, 0, 0⟩ := by simp [startPt3, iS2, panelB, hedge]
  have he1 : endPt3 iS1 = ⟨10, 0, 0⟩ := by simp [endPt3, iS1, panelA, hedge]
  have he2 : endPt3 iS2 = ⟨0, 0, 0⟩ := by simp [endPt3, iS2, panelB, hedge]
  constructor
  · simp only [reverseDist, straightDist, hs1, hs2, he1, he2, Pt3.sub3_mk]
    norm_num [norm3_x, abs_of_nonneg, abs_of_nonpos]
  · rw [isTraversalMatching, if_neg (by simp [iS1])]

theorem Pt2.smul_assoc (a b : ℝ) (v : Pt2) : a • (b • v) = (a * b) • v := by
  cases v; simp; constructor <;> ring

theorem rel_to_abs_on_axis (s e : Pt2) (t : ℝ) :
    rel_to_abs_coords s e (t, 0) = s + (t * (1 / norm2 (e - s))) • (e - s) := by
  obtain ⟨sx, sy⟩ := s
  obtain ⟨ex, ey⟩ := e
  simp [rel_to_abs_coords]
  constructor <;> ring

theorem point_shift_eq (s e : Pt2) (c : ℝ)
    (hne : (e - s).x ≠ 0 ∨ (e - s).y ≠ 0) :
    s + c • (e - s) = e ↔ c = 1 := by
  obtain ⟨sx, sy⟩ := s
  obtain ⟨ex, ey⟩ := e
  simp only [Pt2.sub_mk, Pt2.smul_mk, Pt2.add_mk, Pt2.mk.injEq] at *
  constructor
  · rintro ⟨h1, h2⟩
    rcases hne with hx | hy
    · have hcancel : c * (ex - sx) = 1 * (ex - sx) := by linarith
      exact mul_right_cancel₀ hx hcancel
    · have hcancel : c * (ey - sy) = 1 * (ey - sy) := by linarith
      exact mul_right_cancel₀ hy hcancel
  · rintro rfl
    constructor <;> ring

/-- C9 (amended): `EdgeSeqFactory` constructors are deterministic functions
of their numeric inputs, but `side_with_dart_by_width` is not
argument-pure: line 155 overwrites the caller's `end` vertex in place with
`start + long_side • unit(end - start)`, so the caller's `end` is preserved
only in the degenerate case `long_side = |end - start|`. -/
theorem claim_C9 (s e : Pt2) (width depth pos : ℝ)
    (hL : 0 < norm2 (e - s)) (hpos : pos ≤ norm2 (e - s)) :
    (side_with_dart_by_width_end s e width depth pos = .ok e ↔
      dartWidthLongSide s e width depth pos = norm2 (e - s)) := by
  have hLne : norm2 (e - s) ≠ 0 := ne_of_gt hL
  simp only [side_with_dart_by_width_end]
  rw [if_neg (not_lt.mpr (by linarith))]
  rw [Except.ok.injEq, rel_to_abs_on_axis,
    point_shift_eq _ _ _ (norm2_pos_ne _ hL), mul_one_div,
    div_eq_one_iff_eq hLne]

/-- Witness for C9 at the counterexample's input: the hypotheses hold at
`start = (0,0)`, `end = (20,0)`, `dart_position = 10`. -/
theorem claim_C9_witness :
    0 < norm2 ((⟨20, 0⟩ : Pt2) - ⟨0, 0⟩) ∧
    (10:ℝ) ≤ norm2 ((⟨20, 0⟩ : Pt2) - ⟨0, 0⟩) ∧
    (side_with_dart_by_width_end ⟨0, 0⟩ ⟨20, 0⟩ 6 5 10 = .ok ⟨20, 0⟩ ↔
      dartWidthLongSide ⟨0, 0⟩ ⟨20, 0⟩ 6 5 10 =
        norm2 ((⟨20, 0⟩ : Pt2) - ⟨0, 0⟩)) := by
  have hn : norm2 ((⟨20, 0⟩ : Pt2) - ⟨0, 0⟩) = 20 := by
    simp only [Pt2.sub_mk]
    norm_num [norm2_x, abs_of_nonneg]
  exact ⟨by rw [hn]; norm_num, by rw [hn]; norm_num,
    claim_C9 ⟨0, 0⟩ ⟨20, 0⟩ 6 5 10 (by rw [hn]; norm_num) (by rw [hn]; norm_num)⟩

/-- Counterexample to C9 as stated: with `start = (0,0)`, `end = (20,0)`,
`width = 6`, `depth = 5`, `dart_position = 10`, line 155 of
edge_factory.py rewrites the caller's `end` to `(22, 0) ≠ (20, 0)` — the
`end` argument is mutated, so the constructors are not pure in their
arguments. -/
theorem claim_C9_cex :
    side_with_dart_by_width_end ⟨0, 0⟩ ⟨20, 0⟩ 6 5 10 = .ok ⟨22, 0⟩ ∧
    (⟨22, 0⟩ : Pt2) ≠ (⟨20, 0⟩ : Pt2) := by
  have hn : norm2 ((⟨20, 0⟩ : Pt2) - ⟨0, 0⟩) = 20 := by
    simp only [Pt2.sub_mk]
    norm_num [norm2_x, abs_of_nonneg]
  constructor
  · have hdp : Real.sqrt ((5:ℝ) ^ 2 - (6 / 2) ^ 2) = 4 :=
      sqrt_val (by norm_num) (by norm_num)
    have hat : |Real.arctan (6 / 2 / 4)| = Real.arctan (3 / 4) := by
      rw [show (6:ℝ) / 2 / 4 = 3 / 4 by norm_num]
      refine abs_of_nonneg ?_
      have h0 := Real.arctan_strictMono.monotone (show (0:ℝ) ≤ 3/4 by norm_num)
      rwa [Real.arctan_zero] at h0
    have hcos : Real.cos (Real.pi - 2 * Real.arctan (3/4)) = -(7/25) := by
      rw [Real.cos_pi_sub, Real.cos_two_mul, Real.cos_arctan,
        show (1:ℝ) + (3/4) ^ 2 = 25/16 by norm_num,
        sqrt_val (by norm_num : (0:ℝ) ≤ 5/4) (by norm_num)]
      norm_num
    have hls : dartWidthLongSide ⟨0, 0⟩ ⟨20, 0⟩ 6 5 10 = 22 := by
      simp only [dartWidthLongSide, hn, hdp, hat, hcos]
      exact sqrt_val (by norm_num) (by norm_num)
    simp only [side_with_dart_by_width_end, hn]
    rw [if_neg (by norm_num)]
    rw [hls, rel_to_abs_on_axis, hn]
    simp only [Pt2.sub_mk, Pt2.smul_mk, Pt2.add_mk]
    norm_num
  · intro h
    rw [Pt2.mk.injEq] at h
    exact absurd h.1 (by norm_num)

/-- C8 (amended): `side_with_dart_by_len` does raise on non-convergence —
when the dart-position guard passes and the solver residual misses the
tolerance, it returns the convergence error, never a best-effort shape.
`curve_from_extreme`, however, never raises: its result is the same
best-found curve whether or not the optimiser reports success (the source
only prints a warning on failure). -/
theorem claim_C8 :
    (∀ (s e : Pt2) (target_len dart_position : ℝ) (right : Bool)
        (out : DartMin) (tol : ℝ),
      dart_position + (target_len - dart_position) < norm2 (s - e) →
      ¬ close_enough out.fval 0 tol →
      side_with_dart_by_len s e target_len dart_position right out tol =
        .error .convergenceFailure) ∧
    (∀ (supply : ℕ) (s e t : Pt2) (x : ℝ) (su : Bool),
      curve_from_extreme supply s e t ⟨x, false⟩ =
        curve_from_extreme supply s e t ⟨x, su⟩) := by
  constructor
  · intro s e tl dp r out tol hpos hnc
    simp only [side_with_dart_by_len]
    rw [if_neg (not_le.mpr hpos), if_neg hnc]
  · intro supply s e t x su
    rfl

/-- Witness for C8: a concrete non-converged dart solve (residual 1 against
tolerance 1e-4) on a valid dart position raises the convergence error. -/
theorem claim_C8_witness :
    (25 + (35 - 25) : ℝ) < norm2 ((⟨0, 0⟩ : Pt2) - ⟨50, 0⟩) ∧
    ¬ close_enough (1 : ℝ) 0 (1/10000) ∧
    side_with_dart_by_len ⟨0, 0⟩ ⟨50, 0⟩ 35 25 true
      ⟨⟨0, 0⟩, ⟨0, 0⟩, ⟨0, 0⟩, 1⟩ (1/10000) = .error .convergenceFailure := by
  have hn : norm2 ((⟨0, 0⟩ : Pt2) - ⟨50, 0⟩) = 50 := by
    simp only [Pt2.sub_mk]; norm_num [norm2_x, abs_of_nonpos]
  refine ⟨by rw [hn]; norm_num, by norm_num [close_enough], ?_⟩
  exact claim_C8.1 ⟨0, 0⟩ ⟨50, 0⟩ 35 25 true ⟨⟨0, 0⟩, ⟨0, 0⟩, ⟨0, 0⟩, 1⟩ (1/10000)
    (by rw [hn]; norm_num) (by norm_num [close_enough])

/-- Counterexample to C8 as stated: an optimiser outcome that reports
failure (`success = false`, arbitrary large residual) still makes
`curve_from_extreme` return the best-effort curve — control point
`(0.5, 7)` here — rather than raise any error; the source merely prints a
warning. -/
theorem claim_C8_cex :
    curve_from_extreme 9 ⟨0, 0⟩ ⟨10, 0⟩ ⟨5, 5⟩ ⟨7, false⟩ =
      ⟨⟨0, 0⟩, ⟨10, 0⟩, some (1/2, 7), 9⟩ := by
  have h1 : (abs_to_rel_2d ⟨0, 0⟩ ⟨10, 0⟩ ⟨5, 5⟩).1 = 1/2 := by
    simp only [abs_to_rel_2d, Pt2.sub_mk]
    norm_num [dot2, norm2_x, abs_of_nonneg]
  simp only [curve_from_extreme, h1]

/-- Total edge length of an interface entry list. -/
noncomputable def edgesLenSum (l : List (Panel × Edge)) : ℝ :=
  (l.map fun pe => pe.2.length).sum

theorem Edge.length_nonneg (e : Edge) : 0 ≤ e.length := by
  rcases e with ⟨s, t, cp, g⟩
  cases cp with
  | none => exact norm2_nonneg _
  | some c =>
    simp only [Edge.length]
    exact add_nonneg (norm2_nonneg _) (norm2_nonneg _)

theorem Edge.length_of_cp_none (e : Edge) (h : e.cp = none) :
    e.length = norm2 (e.stop - e.start) := by
  rcases e with ⟨s, t, cp, g⟩
  simp only at h
  subst h
  rfl

theorem edgesLenSum_append (l1 l2 : List (Panel × Edge)) :
    edgesLenSum (l1 ++ l2) = edgesLenSum l1 + edgesLenSum l2 := by
  simp [edgesLenSum]

theorem edgesLenSum_cons (pe : Panel × Edge) (l : List (Panel × Edge)) :
    edgesLenSum (pe :: l) = pe.2.length + edgesLenSum l := by
  simp [edgesLenSum]

theorem edgesLenSum_nonneg (l : List (Panel × Edge)) : 0 ≤ edgesLenSum l := by
  refine List.sum_nonneg ?_
  intro x hx
  obtain ⟨pe, _, rfl⟩ := List.mem_map.mp hx
  exact Edge.length_nonneg _

/-- Characterisation of `from_fractions` on a two-fraction list `[f, 1-f]`
(as used by `_match_side_count`): on success, the result is the two
straight sub-edges through `s + |f| • (e - s)` with fresh ids, and the
total produced length lies between the chord length and `(1+1e-4)` times
it — the check on the ABSOLUTISED fraction sum admits at most that much
inflation. -/
theorem from_fractions_two (supply : ℕ) (s e : Pt2) (f : ℝ) (es : List Edge)
    (s2 : ℕ) (h : from_fractions supply s e [f, 1 - f] = .ok (es, s2)) :
    es = [⟨s, s + |f| • (e - s), none, supply⟩,
          ⟨s + |f| • (e - s), e, none, supply + 1⟩] ∧
    s2 = supply + 2 ∧
    norm2 (e - s) ≤ (es.map Edge.length).sum ∧
    (es.map Edge.length).sum ≤ (1 + 1/10000) * norm2 (e - s) := by
  simp only [from_fractions] at h
  by_cases hc : close_enough ([f, 1 - f].map (fun g => |g|)).sum 1 (1/10000)
  case neg => rw [if_neg hc] at h; exact absurd h (by simp)
  rw [if_pos hc] at h
  have hc' : abs (|f| + |1 - f| - 1) < 1/10000 := by
    simpa [close_enough] using hc
  simp only [List.map_cons, List.map_nil, List.dropLast, mid_verts,
    List.cons_append, List.nil_append, from_verts] at h
  rw [Except.ok.injEq, Prod.mk.injEq] at h
  obtain ⟨hes, hs2⟩ := h
  have key : 1 ≤ |f| + abs (1 - |f|) ∧ |f| + abs (1 - |f|) ≤ 1 + 1/10000 := by
    rcases le_or_lt 0 f with hf | hf
    · rw [abs_of_nonneg hf] at hc' ⊢
      rw [abs_sub_lt_iff] at hc'
      constructor
      · have := le_abs_self (1 - f)
        linarith
      · linarith [hc'.1]
    · rw [abs_of_neg hf] at hc' ⊢
      rw [abs_of_pos (by linarith : (0:ℝ) < 1 - f)] at hc'
      rw [abs_sub_lt_iff] at hc'
      have hfs : -f < 1/20000 := by linarith [hc'.1]
      rw [abs_of_pos (by linarith : (0:ℝ) < 1 - -f)]
      constructor <;> linarith
  have hlen : (es.map Edge.length).sum = (|f| + abs (1 - |f|)) * norm2 (e - s) := by
    rw [← hes]
    simp only [List.map_cons, List.map_nil, Edge.length_straight, List.sum_cons,
      List.sum_nil]
    rw [Pt2.add_sub_self, Pt2.sub_shift, norm2_smul, norm2_smul, abs_abs]
    ring
  have hL := norm2_nonneg (e - s)
  refine ⟨hes.symm, hs2.symm, ?_, ?_⟩
  · rw [hlen]; nlinarith [key.1]
  · rw [hlen]; nlinarith [key.2]

theorem edgesLenSum_nil : edgesLenSum [] = 0 := by simp [edgesLenSum]

theorem edgesLenSum_cons2 (p : Panel) (e : Edge) (l : List (Panel × Edge)) :
    edgesLenSum ((p, e) :: l) = e.length + edgesLenSum l := by
  simp [edgesLenSum]

/-- Existential form of `from_fractions_two` for use inside the loop
induction: the two produced sub-edges are straight and their total length
lies between the chord length and `(1+1e-4)` times it. -/
theorem from_fractions_two_ex (supply : ℕ) (s e : Pt2) (f : ℝ) (es : List Edge)
    (s2 : ℕ) (h : from_fractions supply s e [f, 1 - f] = .ok (es, s2)) :
    ∃ E1 E2 : Edge, es = [E1, E2] ∧ E1.cp = none ∧ E2.cp = none ∧
      norm2 (e - s) ≤ E1.length + E2.length ∧
      E1.length + E2.length ≤ (1 + 1/10000) * norm2 (e - s) := by
  obtain ⟨hes, _, hlo, hhi⟩ := from_fractions_two supply s e f es s2 h
  refine ⟨_, _, hes, rfl, rfl, ?_, ?_⟩
  · rw [hes] at hlo
    simpa using hlo
  · rw [hes] at hhi
    simpa using hhi

/-- Length bounds along the `_match_side_count` loop: on straight edges, a
successful run never shrinks the total edge length, and each `to_add` entry
can inflate it by at most the factor `1 + 1e-4` admitted by the
`from_fractions` check. -/
theorem mscLoop_bounds (tol : ℝ) : ∀ (N : ℕ) (rest : List (Panel × Edge))
    (toAdd : List ℝ) (done : List (Panel × Edge)) (ci ca : ℝ) (supply : ℕ)
    (out : List (Panel × Edge)) (s2 : ℕ),
    rest.length + toAdd.length ≤ N →
    (∀ pe ∈ rest, (pe : Panel × Edge).2.cp = none) →
    mscLoop tol supply done rest toAdd ci ca = .ok (out, s2) →
    edgesLenSum done + edgesLenSum rest ≤ edgesLenSum out ∧
    edgesLenSum out ≤
      edgesLenSum done + (1 + 1/10000) ^ toAdd.length * edgesLenSum rest := by
  intro N
  induction N with
  | zero =>
    intro rest toAdd done ci ca supply out s2 hN hcp hrun
    have hrest : rest = [] := List.eq_nil_of_length_eq_zero (by omega)
    have htoAdd : toAdd = [] := List.eq_nil_of_length_eq_zero (by omega)
    subst hrest; subst htoAdd
    rw [mscLoop] at hrun
    rw [Except.ok.injEq, Prod.mk.injEq] at hrun
    rw [← hrun.1, List.append_nil]
    simp [edgesLenSum]
  | succ N ih =>
    intro rest toAdd done ci ca supply out s2 hN hcp hrun
    cases toAdd with
    | nil =>
      rw [mscLoop] at hrun
      rw [Except.ok.injEq, Prod.mk.injEq] at hrun
      rw [← hrun.1, edgesLenSum_append]
      simp
    | cons t ts =>
      cases rest with
      | nil =>
        rw [mscLoop] at hrun
        exact absurd hrun (by simp)
      | cons pe rest' =>
        obtain ⟨p, e⟩ := pe
        have hstraight : e.cp = none := hcp (p, e) (by simp)
        have hcp' : ∀ q ∈ rest', (q : Panel × Edge).2.cp = none :=
          fun q hq => hcp q (by simp [hq])
        have hP1 : (1:ℝ) ≤ 1 + 1/10000 := by norm_num
        have hPk : ∀ k : ℕ, (1:ℝ) ≤ (1 + 1/10000) ^ k :=
          fun k => one_le_pow₀ hP1
        have hPnn : ∀ k : ℕ, (0:ℝ) ≤ (1 + 1/10000) ^ k :=
          fun k => le_trans zero_le_one (hPk k)
        have hPmono : ∀ k : ℕ, ((1:ℝ) + 1/10000) ^ k ≤ (1 + 1/10000) ^ (k + 1) :=
          fun k => pow_le_pow_right₀ hP1 (Nat.le_succ k)
        have hle := Edge.length_nonneg e
        have hr' := edgesLenSum_nonneg rest'
        rw [mscLoop] at hrun
        rw [edgesLenSum_cons2]
        simp only [List.length_cons]
        by_cases h1 : close_enough
            (ci + projLen (chordOf (done ++ (p, e) :: rest')) e) (ca + t) tol
        · rw [if_pos h1] at hrun
          have hres := ih rest' ts (done ++ [(p, e)]) _ _ supply out s2
            (by simp at hN ⊢; omega) hcp' hrun
          rw [edgesLenSum_append, edgesLenSum_cons2, edgesLenSum_nil, add_zero]
            at hres
          obtain ⟨hlow, hhigh⟩ := hres
          have e1 : e.length ≤ (1 + 1/10000) ^ (ts.length + 1) * e.length :=
            le_mul_of_one_le_left hle (hPk _)
          have e2 : (1 + 1/10000) ^ ts.length * edgesLenSum rest' ≤
              (1 + 1/10000) ^ (ts.length + 1) * edgesLenSum rest' :=
            mul_le_mul_of_nonneg_right (hPmono _) hr'
          have hexp : (1 + 1/10000) ^ (ts.length + 1) *
              (e.length + edgesLenSum rest') =
              (1 + 1/10000) ^ (ts.length + 1) * e.length +
              (1 + 1/10000) ^ (ts.length + 1) * edgesLenSum rest' := by ring
          exact ⟨by linarith, by rw [hexp]; linarith⟩
        · rw [if_neg h1] at hrun
          by_cases h2 : ci + projLen (chordOf (done ++ (p, e) :: rest')) e < ca + t
          · rw [if_pos h2] at hrun
            have hres := ih rest' (t :: ts) (done ++ [(p, e)]) _ _ supply out s2
              (by simp at hN ⊢; omega) hcp' hrun
            rw [edgesLenSum_append, edgesLenSum_cons2, edgesLenSum_nil, add_zero]
              at hres
            obtain ⟨hlow, hhigh⟩ := hres
            simp only [List.length_cons] at hhigh
            have e1 : e.length ≤ (1 + 1/10000) ^ (ts.length + 1) * e.length :=
              le_mul_of_one_le_left hle (hPk _)
            have hexp : (1 + 1/10000) ^ (ts.length + 1) *
                (e.length + edgesLenSum rest') =
                (1 + 1/10000) ^ (ts.length + 1) * e.length +
                (1 + 1/10000) ^ (ts.length + 1) * edgesLenSum rest' := by ring
            exact ⟨by linarith, by rw [hexp]; linarith⟩
          · rw [if_neg h2] at hrun
            simp only [] at hrun
            rcases hff : from_fractions supply e.start e.stop
                [(projLen (chordOf (done ++ (p, e) :: rest')) e -
                    (ci + projLen (chordOf (done ++ (p, e) :: rest')) e - (ca + t))) /
                  projLen (chordOf (done ++ (p, e) :: rest')) e,
                 1 - (projLen (chordOf (done ++ (p, e) :: rest')) e -
                    (ci + projLen (chordOf (done ++ (p, e) :: rest')) e - (ca + t))) /
                  projLen (chordOf (done ++ (p, e) :: rest')) e] with err | pr
            · rw [hff] at hrun
              exact absurd hrun (by simp)
            · obtain ⟨es, s3⟩ := pr
              obtain ⟨E1, E2, hes, hcp1, hcp2, hlo, hhi⟩ :=
                from_fractions_two_ex _ _ _ _ _ _ hff
              rw [hff, hes] at hrun
              have hres := ih ((p, E2) :: rest') ts (done ++ [(p, E1)]) _ _ _ out s2
                (by simp at hN ⊢; omega)
                (by
                  intro q hq
                  rcases List.mem_cons.mp hq with h | h
                  · rw [h]; exact hcp2
                  · exact hcp' q h)
                hrun
              rw [edgesLenSum_append, edgesLenSum_cons2, edgesLenSum_nil, add_zero,
                edgesLenSum_cons2] at hres
              obtain ⟨hlow, hhigh⟩ := hres
              have hechord : e.length = norm2 (e.stop - e.start) :=
                Edge.length_of_cp_none e hstraight
              have hl1 := Edge.length_nonneg E1
              have hl2 := Edge.length_nonneg E2
              constructor
              · rw [hechord]; linarith
              · have q1 : E1.length ≤ (1 + 1/10000) ^ ts.length * E1.length :=
                  le_mul_of_one_le_left hl1 (hPk _)
                have q2 : (1 + 1/10000) ^ ts.length * (E1.length + E2.length) ≤
                    (1 + 1/10000) ^ ts.length *
                      ((1 + 1/10000) * norm2 (e.stop - e.start)) :=
                  mul_le_mul_of_nonneg_left hhi (hPnn _)
                have q3 : (1 + 1/10000) ^ ts.length *
                    ((1 + 1/10000) * norm2 (e.stop - e.start)) =
                    (1 + 1/10000) ^ (ts.length + 1) * norm2 (e.stop - e.start) := by
                  rw [pow_succ]; ring
                have q4 : (1 + 1/10000) ^ ts.length * edgesLenSum rest' ≤
                    (1 + 1/10000) ^ (ts.length + 1) * edgesLenSum rest' :=
                  mul_le_mul_of_nonneg_right (hPmono _) hr'
                have hexp1 : (1 + 1/10000) ^ ts.length *
                    (E2.length + edgesLenSum rest') =
                    (1 + 1/10000) ^ ts.length * E2.length +
                    (1 + 1/10000) ^ ts.length * edgesLenSum rest' := by ring
                have hexp2 : (1 + 1/10000) ^ ts.length *
                    (E1.length + E2.length) =
                    (1 + 1/10000) ^ ts.length * E1.length +
                    (1 + 1/10000) ^ ts.length * E2.length := by ring
                have hexp3 : (1 + 1/10000) ^ (ts.length + 1) *
                    (e.length + edgesLenSum rest') =
                    (1 + 1/10000) ^ (ts.length + 1) * e.length +
                    (1 + 1/10000) ^ (ts.length + 1) * edgesLenSum rest' := by ring
                rw [hexp3, hechord]
                rw [hexp1] at hhigh
                linarith

/-- C5 (amended): for every interface all of whose edges are straight, a
successful `_match_side_count` conserves the total edge length within
tolerance: the sum never decreases, and it can grow by at most the factor
`(1+1e-4)` per `to_add` entry (the inflation `from_fractions` admits).  For
interfaces containing curved edges the conservation claim fails — see the
counterexample: subdivision replaces the curve by straight chords. -/
theorem claim_C5 (inter : Interface) (toAdd : List ℝ) (tol : ℝ) (supply : ℕ)
    (inter2 : Interface) (s2 : ℕ)
    (hstraight : ∀ pe ∈ inter.entries, (pe : Panel × Edge).2.cp = none)
    (hrun : match_side_count inter toAdd tol supply = .ok (inter2, s2)) :
    edgesLenSum inter.entries ≤ edgesLenSum inter2.entries ∧
    edgesLenSum inter2.entries ≤
      (1 + 1/10000) ^ toAdd.length * edgesLenSum inter.entries := by
  simp only [match_side_count] at hrun
  rcases hm : mscLoop tol supply [] inter.entries toAdd 0 0 with err | pr
  · rw [hm] at hrun; exact absurd hrun (by simp [Except.map])
  · obtain ⟨out, s3⟩ := pr
    rw [hm] at hrun
    simp only [Except.map, Except.ok.injEq, Prod.mk.injEq] at hrun
    obtain ⟨hi, _⟩ := hrun
    have hb := mscLoop_bounds tol (inter.entries.length + toAdd.length)
      inter.entries toAdd [] 0 0 supply out s3 le_rfl hstraight hm
    rw [edgesLenSum_nil, zero_add, zero_add] at hb
    rw [← hi]
    exact hb

/-- Straight-edge interface for the C5 witness. -/
noncomputable def iC5 : Interface := ⟨[(panelA, hedge 0 12 40)]⟩

/-- The C5 witness interface after subdivision at lengths 3 and 9. -/
noncomputable def iC5s : Interface := ⟨[(panelA, hedge 0 3 41), (panelA, hedge 3 12 42)]⟩

theorem msc_C5w : mscLoop (1/10) 41 [] [(panelA, hedge 0 12 40)] [3, 9] 0 0 =
    .ok ([(panelA, hedge 0 3 41), (panelA, hedge 3 12 42)], 43) := by
  have hch : chordOf [(panelA, hedge 0 12 40)] = ⟨12, 0⟩ := by
    simp [chordOf]
  have hp12 : projLen ⟨12, 0⟩ (hedge 0 12 40) = 12 := by
    rw [hedge_projLen 0 12 12 40 (by norm_num)]; norm_num [abs_of_nonneg]
  have hff : from_fractions 41 ⟨0, 0⟩ ⟨12, 0⟩ [1/4, 3/4] =
      .ok ([hedge 0 3 41, hedge 3 12 42], 43) := by
    simp only [from_fractions]
    rw [if_pos (by norm_num [close_enough, abs_of_nonneg])]
    simp [mid_verts, from_verts, hedge]
    norm_num [abs_of_nonneg]
  have hch2 : chordOf [(panelA, hedge 0 3 41), (panelA, hedge 3 12 42)] = ⟨12, 0⟩ := by
    simp [chordOf]
  have hp9 : projLen ⟨12, 0⟩ (hedge 3 12 42) = 9 := by
    rw [hedge_projLen 3 12 12 42 (by norm_num)]; norm_num [abs_of_nonneg]
  have hl3 : (hedge 0 3 41).length = 3 := by
    rw [hedge_length]; norm_num [abs_of_nonneg]
  rw [mscLoop]
  simp only [List.nil_append, hch, hp12, hedge_start, hedge_stop]
  rw [if_neg (by norm_num [close_enough, abs_sub_lt_iff])]
  rw [if_neg (by norm_num)]
  norm_num
  rw [hff]
  simp only [hl3]
  rw [mscLoop]
  simp only [List.cons_append, List.nil_append, hch2, hp9]
  rw [if_pos (by norm_num [close_enough, abs_sub_lt_iff])]
  rw [mscLoop]
  simp

/-- Witness for C5: the straight one-edge interface of length 12 split at
lengths 3 and 9; the total edge length obeys the conservation bounds. -/
theorem claim_C5_witness :
    (∀ pe ∈ iC5.entries, (pe : Panel × Edge).2.cp = none) ∧
    match_side_count iC5 [3, 9] (1/10) 41 = .ok (iC5s, 43) ∧
    edgesLenSum iC5.entries ≤ edgesLenSum iC5s.entries ∧
    edgesLenSum iC5s.entries ≤ (1 + 1/10000) ^ 2 * edgesLenSum iC5.entries := by
  have hstraight : ∀ pe ∈ iC5.entries, (pe : Panel × Edge).2.cp = none := by
    intro pe hpe
    simp [iC5, hedge] at hpe
    rw [hpe]
  have hrun : match_side_count iC5 [3, 9] (1/10) 41 = .ok (iC5s, 43) := by
    simp only [match_side_count, iC5]
    rw [msc_C5w]
    simp [Except.map, iC5s]
  have hb := claim_C5 iC5 [3, 9] (1/10) 41 iC5s 43 hstraight hrun
  exact ⟨hstraight, hrun, hb.1, hb.2⟩

/-- A curved edge over the chord `(0,0) → (10,0)` with relative control
point `(1/2, 3/4)` — absolute control `(5, 7.5)`, so its (sampled) arc
length is 12.5 while its chord is 10. -/
noncomputable def curveEdgeC5 : Edge := ⟨⟨0, 0⟩, ⟨10, 0⟩, some (1/2, 3/4), 50⟩

@[simp] theorem curveEdgeC5_start : curveEdgeC5.start = ⟨0, 0⟩ := rfl

@[simp] theorem curveEdgeC5_stop : curveEdgeC5.stop = ⟨10, 0⟩ := rfl

/-- Interface holding the single curved edge. -/
noncomputable def iC5c : Interface := ⟨[(panelA, curveEdgeC5)]⟩

/-- Straight partner interface of projected lengths 4 and 6. -/
noncomputable def iC5b : Interface := ⟨[(panelB, hedge 0 4 51), (panelB, hedge 4 10 52)]⟩

/-- The curved interface after matching: two straight chords. -/
noncomputable def iC5c2 : Interface := ⟨[(panelA, hedge 0 4 53), (panelA, hedge 4 10 54)]⟩

theorem norm2_eval (a b c : ℝ) (hc : 0 ≤ c) (h : c ^ 2 = a ^ 2 + b ^ 2) :
    norm2 ⟨a, b⟩ = c := by
  rw [norm2]; exact sqrt_val hc h

theorem curveEdgeC5_len : curveEdgeC5.length = 25/2 := by
  have hcp : curveEdgeC5.cpAbs (1/2, 3/4) = ⟨5, 15/2⟩ := by
    simp [Edge.cpAbs]
    norm_num
  simp only [Edge.length, curveEdgeC5]
  rw [show ((⟨⟨0, 0⟩, ⟨10, 0⟩, some (1/2, 3/4), 50⟩ : Edge)).cpAbs (1/2, 3/4) =
    curveEdgeC5.cpAbs (1/2, 3/4) from rfl, hcp]
  simp only [Pt2.smul_mk, Pt2.add_mk, Pt2.sub_mk]
  norm_num
  rw [norm2_eval 5 (15/4) (25/4) (by norm_num) (by norm_num),
    norm2_eval 5 (-(15/4)) (25/4) (by norm_num) (by norm_num)]
  norm_num

theorem msc_C5c : mscLoop (1/10) 53 [] [(panelA, curveEdgeC5)] [4, 6] 0 0 =
    .ok ([(panelA, hedge 0 4 53), (panelA, hedge 4 10 54)], 55) := by
  have hch : chordOf [(panelA, curveEdgeC5)] = ⟨10, 0⟩ := by
    simp [chordOf]
  have hp10 : projLen ⟨10, 0⟩ curveEdgeC5 = 10 := by
    simp only [projLen, curveEdgeC5_start, curveEdgeC5_stop, Pt2.sub_mk, dot2]
    norm_num [norm2_x, abs_of_nonneg]
  have hch2 : chordOf [(panelA, hedge 0 4 53), (panelA, hedge 4 10 54)] = ⟨10, 0⟩ := by
    simp [chordOf]
  have hp6 : projLen ⟨10, 0⟩ (hedge 4 10 54) = 6 := by
    rw [hedge_projLen 4 10 10 54 (by norm_num)]; norm_num [abs_of_nonneg]
  have hl4 : (hedge 0 4 53).length = 4 := by
    rw [hedge_length]; norm_num [abs_of_nonneg]
  rw [mscLoop]
  simp only [List.nil_append, hch, hp10, curveEdgeC5_start, curveEdgeC5_stop]
  rw [if_neg (by norm_num [close_enough, abs_sub_lt_iff])]
  rw [if_neg (by norm_num)]
  norm_num
  rw [ff_split_10 53]
  simp only [hl4]
  rw [mscLoop]
  simp only [List.cons_append, List.nil_append, hch2, hp6]
  rw [if_pos (by norm_num [close_enough, abs_sub_lt_iff])]
  rw [mscLoop]
  simp

theorem mec_C5c : match_edge_count iC5c iC5b (1/10) 53 = .ok (iC5c2, iC5b, 55) := by
  have htm : isTraversalMatching iC5c iC5b = true := by
    simp [isTraversalMatching, iC5c]
  have hchA : chordOf [(panelA, curveEdgeC5)] = ⟨10, 0⟩ := by
    simp [chordOf]
  have hchB : chordOf [(panelB, hedge 0 4 51), (panelB, hedge 4 10 52)] = ⟨10, 0⟩ := by
    simp [chordOf]
  have hl1 : projLens iC5c = [10] := by
    simp only [projLens, iC5c, List.map_cons, List.map_nil, hchA]
    simp only [projLen, curveEdgeC5_start, curveEdgeC5_stop, Pt2.sub_mk, dot2]
    norm_num [norm2_x, abs_of_nonneg]
  have hl2 : projLens iC5b = [4, 6] := by
    simp only [projLens, iC5b, List.map_cons, List.map_nil, hchB]
    rw [hedge_projLen 0 4 10 51 (by norm_num), hedge_projLen 4 10 10 52 (by norm_num)]
    norm_num [abs_of_nonneg]
  simp only [match_edge_count, htm, if_true, hl1, hl2]
  rw [if_pos (by norm_num [close_enough, abs_sub_lt_iff])]
  simp only [match_side_count, iC5c, iC5b]
  rw [msc_C5c]
  simp only [Except.map]
  rw [msc_4_6_vs_10 55 51 52 panelB]
  simp [iC5c2, iC5b]

/-- Counterexample to C5 as stated: an interface consisting of one CURVED
edge (arc length 12.5, chord 10) is subdivided by `match_edge_count` into
two straight chord segments of total length 10 — the total edge length
drops by 2.5, far beyond the 0.1 tolerance, because `from_fractions`
creates straight edges regardless of the original curvature
(connector.py line 111). -/
theorem claim_C5_cex :
    match_edge_count iC5c iC5b (1/10) 53 = .ok (iC5c2, iC5b, 55) ∧
    edgesLenSum iC5c.entries = 25/2 ∧
    edgesLenSum iC5c2.entries = 10 ∧
    ¬ close_enough (edgesLenSum iC5c2.entries) (edgesLenSum iC5c.entries) (1/10) := by
  have h1 : edgesLenSum iC5c.entries = 25/2 := by
    simp [edgesLenSum, iC5c, curveEdgeC5_len]
  have h2 : edgesLenSum iC5c2.entries = 10 := by
    simp [edgesLenSum, iC5c2, hedge_length]
    norm_num [abs_of_nonneg]
  refine ⟨mec_C5c, h1, h2, ?_⟩
  rw [h1, h2, close_enough]
  norm_num [abs_of_nonneg]

/-- When every cumulative projected-length boundary of the interface agrees
with the corresponding cumulative `to_add` boundary within `tol`, the
`_match_side_count` loop takes the vertex-exists branch at every step and
returns the entry list unchanged (and allocates no ids). -/
theorem mscLoop_no_change (tol : ℝ) : ∀ (rest : List (Panel × Edge))
    (toAdd : List ℝ) (done : List (Panel × Edge)) (ci ca : ℝ) (supply : ℕ),
    rest.length = toAdd.length →
    (∀ k, k < toAdd.length →
      |ci + ((rest.take (k+1)).map
          (fun pe => projLen (chordOf (done ++ rest)) pe.2)).sum -
        (ca + (toAdd.take (k+1)).sum)| < tol) →
    mscLoop tol supply done rest toAdd ci ca = .ok (done ++ rest, supply) := by
  intro rest
  induction rest with
  | nil =>
    intro toAdd done ci ca supply hlen _
    have ht : toAdd = [] := List.eq_nil_of_length_eq_zero hlen.symm
    subst ht
    rw [mscLoop]
  | cons pe rest' ih =>
    intro toAdd done ci ca supply hlen hcl
    cases toAdd with
    | nil => simp at hlen
    | cons t ts =>
      obtain ⟨p, e⟩ := pe
      have happ : (done ++ [(p, e)]) ++ rest' = done ++ (p, e) :: rest' := by
        simp
      have hcond : close_enough
          (ci + projLen (chordOf (done ++ (p, e) :: rest')) e) (ca + t) tol := by
        have h0 := hcl 0 (by simp)
        simp only [List.take_succ_cons, List.take_zero, List.map_cons,
          List.map_nil, List.sum_cons, List.sum_nil, add_zero] at h0
        rw [close_enough]
        rw [abs_sub_lt_iff] at h0 ⊢
        constructor <;> linarith [h0.1, h0.2]
      rw [mscLoop, if_pos hcond]
      have hstep := ih ts (done ++ [(p, e)])
        (ci + projLen (chordOf (done ++ (p, e) :: rest')) e) (ca + t) supply
        (by simpa using hlen)
        (by
          intro k hk
          have h2 := hcl (k+1) (by simp; omega)
          simp only [List.take_succ_cons, List.map_cons, List.sum_cons] at h2
          rw [happ]
          rw [abs_sub_lt_iff] at h2 ⊢
          constructor <;> [linarith [h2.1]; linarith [h2.2]])
      rw [hstep, happ]

theorem projLens_take_sum (i : Interface) (k : ℕ) :
    ((i.entries.take k).map (fun pe => projLen (chordOf i.entries) pe.2)).sum =
    ((projLens i).take k).sum := by
  rw [projLens, ← List.map_take]

theorem projLens_length (i : Interface) : (projLens i).length = i.entries.length := by
  simp [projLens]

/-- C7 (amended): when the two interfaces traverse in matching direction,
have equal edge counts, and EVERY cumulative projected-length boundary of
side 1 agrees with the corresponding boundary of side 2 within `tol`
(not merely the totals), `match_edge_count` performs no structural
mutation — it returns both interfaces unchanged and allocates no ids — and
`assembly()` is the direct positional zip.  Equal counts with equal totals
alone do not suffice: see the counterexample. -/
theorem claim_C7 (i1 i2 : Interface) (tol : ℝ) (supply : ℕ)
    (htrav : isTraversalMatching i1 i2 = true)
    (hlen : i1.entries.length = i2.entries.length)
    (hpre : ∀ k, k ≤ i1.entries.length →
      |((projLens i1).take k).sum - ((projLens i2).take k).sum| < tol) :
    match_edge_count i1 i2 tol supply = .ok (i1, i2, supply) ∧
    StitchingRule.assembly ⟨i1, i2⟩ =
      .ok ((List.range i1.entries.length).map fun k =>
        (stitchEndAt i1 k, stitchEndAt i2 k)) := by
  have hl1len : (projLens i1).length = i1.entries.length := projLens_length i1
  have hl2len : (projLens i2).length = i2.entries.length := projLens_length i2
  have hsum : close_enough (projLens i1).sum (projLens i2).sum tol := by
    have h := hpre i1.entries.length le_rfl
    rw [List.take_of_length_le (le_of_eq hl1len),
      List.take_of_length_le (by rw [hl2len, ← hlen])] at h
    exact h
  constructor
  · simp only [match_edge_count, htrav, if_true]
    rw [if_pos hsum]
    have hrun1 : match_side_count i1 (projLens i2) tol supply = .ok (i1, supply) := by
      simp only [match_side_count]
      rw [mscLoop_no_change tol i1.entries (projLens i2) [] 0 0 supply
        (by rw [hl2len]; exact hlen)
        (by
          intro k hk
          simp only [List.nil_append, zero_add]
          rw [projLens_take_sum]
          exact hpre (k+1) (by rw [hl2len, ← hlen] at hk; omega))]
      simp [Except.map]
    have hrun2 : match_side_count i2 (projLens i1) tol supply = .ok (i2, supply) := by
      simp only [match_side_count]
      rw [mscLoop_no_change tol i2.entries (projLens i1) [] 0 0 supply
        (by rw [hl1len, hlen])
        (by
          intro k hk
          simp only [List.nil_append, zero_add]
          rw [projLens_take_sum]
          rw [abs_sub_comm]
          exact hpre (k+1) (by rw [hl1len] at hk; omega))]
      simp [Except.map]
    rw [hrun1]
    simp [hrun2]
  · rw [StitchingRule.assembly]
    rw [if_pos hlen]
    simp [htrav]

/-- First interface of the C7 witness: edges of projected lengths 5 and 5. -/
noncomputable def iW1 : Interface := ⟨[(panelA, hedge 0 5 60), (panelA, hedge 5 10 61)]⟩

/-- Second interface of the C7 witness: the same boundary layout on panel B. -/
noncomputable def iW2 : Interface := ⟨[(panelB, hedge 0 5 62), (panelB, hedge 5 10 63)]⟩

/-- Witness for C7: two aligned interfaces with pairwise-equal cumulative
projected lengths are returned unchanged and assembled as the direct zip. -/
theorem claim_C7_witness :
    isTraversalMatching iW1 iW2 = true ∧
    iW1.entries.length = iW2.entries.length ∧
    (∀ k, k ≤ iW1.entries.length →
      |((projLens iW1).take k).sum - ((projLens iW2).take k).sum| < 1/10) ∧
    match_edge_count iW1 iW2 (1/10) 21 = .ok (iW1, iW2, 21) ∧
    StitchingRule.assembly ⟨iW1, iW2⟩ =
      .ok [(⟨"A", 60⟩, ⟨"B", 62⟩), (⟨"A", 61⟩, ⟨"B", 63⟩)] := by
  have htrav : isTraversalMatching iW1 iW2 = true := by
    have hs1 : startPt3 iW1 = ⟨0, 0, 0⟩ := by simp [startPt3, iW1, panelA, hedge]
    have hs2 : startPt3 iW2 = ⟨0, 0, 0⟩ := by simp [startPt3, iW2, panelB, hedge]
    have he1 : endPt3 iW1 = ⟨10, 0, 0⟩ := by simp [endPt3, iW1, panelA, hedge]
    have he2 : endPt3 iW2 = ⟨10, 0, 0⟩ := by simp [endPt3, iW2, panelB, hedge]
    have hr : reverseDist iW1 iW2 = 20 := by
      simp only [reverseDist, hs1, hs2, he1, he2, Pt3.sub3_mk]
      norm_num [norm3_x, abs_of_nonneg, abs_of_nonpos]
    have hst : straightDist iW1 iW2 = 0 := by
      simp only [straightDist, hs1, hs2, he1, he2, Pt3.sub3_mk]
      norm_num [norm3_x]
    simp only [isTraversalMatching, hr, hst]
    rw [if_pos (show 1 < iW1.entries.length by simp [iW1])]
    norm_num
  have hl1 : projLens iW1 = [5, 5] := by
    have hch : chordOf [(panelA, hedge 0 5 60), (panelA, hedge 5 10 61)] = ⟨10, 0⟩ := by
      simp [chordOf]
    simp only [projLens, iW1, List.map_cons, List.map_nil, hch]
    rw [hedge_projLen 0 5 10 60 (by norm_num), hedge_projLen 5 10 10 61 (by norm_num)]
    norm_num [abs_of_nonneg]
  have hl2 : projLens iW2 = [5, 5] := by
    have hch : chordOf [(panelB, hedge 0 5 62), (panelB, hedge 5 10 63)] = ⟨10, 0⟩ := by
      simp [chordOf]
    simp only [projLens, iW2, List.map_cons, List.map_nil, hch]
    rw [hedge_projLen 0 5 10 62 (by norm_num), hedge_projLen 5 10 10 63 (by norm_num)]
    norm_num [abs_of_nonneg]
  have hlen : iW1.entries.length = iW2.entries.length := by simp [iW1, iW2]
  have hpre : ∀ k, k ≤ iW1.entries.length →
      |((projLens iW1).take k).sum - ((projLens iW2).take k).sum| < 1/10 := by
    intro k hk
    rw [hl1, hl2]
    simp
  have hmain := claim_C7 iW1 iW2 (1/10) 21 htrav hlen hpre
  refine ⟨htrav, hlen, hpre, hmain.1, ?_⟩
  rw [hmain.2]
  simp [iW1, iW2, stitchEndAt, List.range_succ, panelA, panelB, hedge]

/-- C7 counterexample interface 1: edges of projected lengths 5 and 5. -/
noncomputable def i7a : Interface := ⟨[(panelA, hedge 0 5 70), (panelA, hedge 5 10 71)]⟩

/-- C7 counterexample interface 2: edges of projected lengths 4 and 6 —
equal count and equal total, but misaligned interior boundaries. -/
noncomputable def i7b : Interface := ⟨[(panelB, hedge 0 4 72), (panelB, hedge 4 10 73)]⟩

/-- Interface 1 of the C7 counterexample after matching: three edges. -/
noncomputable def i7a2 : Interface :=
  ⟨[(panelA, hedge 0 4 74), (panelA, hedge 4 5 75), (panelA, hedge 5 10 71)]⟩

/-- Interface 2 of the C7 counterexample after matching: three edges. -/
noncomputable def i7b2 : Interface :=
  ⟨[(panelB, hedge 0 4 72), (panelB, hedge 4 5 76), (panelB, hedge 5 10 77)]⟩

theorem ff_C7a : from_fractions 74 ⟨0, 0⟩ ⟨5, 0⟩ [4/5, 1/5] =
    .ok ([hedge 0 4 74, hedge 4 5 75], 76) := by
  simp only [from_fractions]
  rw [if_pos (by norm_num [close_enough, abs_of_nonneg])]
  simp [mid_verts, from_verts, hedge]
  norm_num [abs_of_nonneg]

theorem ff_C7b : from_fractions 76 ⟨4, 0⟩ ⟨10, 0⟩ [1/6, 5/6] =
    .ok ([hedge 4 5 76, hedge 5 10 77], 78) := by
  simp only [from_fractions]
  rw [if_pos (by norm_num [close_enough, abs_of_nonneg])]
  simp [mid_verts, from_verts, hedge]
  norm_num [abs_of_nonneg]

theorem msc_C7a : mscLoop (1/10) 74 [] [(panelA, hedge 0 5 70), (panelA, hedge 5 10 71)]
    [4, 6] 0 0 =
    .ok ([(panelA, hedge 0 4 74), (panelA, hedge 4 5 75), (panelA, hedge 5 10 71)], 76) := by
  have hch0 : chordOf [(panelA, hedge 0 5 70), (panelA, hedge 5 10 71)] = ⟨10, 0⟩ := by
    simp [chordOf]
  have hch1 : chordOf [(panelA, hedge 0 4 74), (panelA, hedge 4 5 75),
      (panelA, hedge 5 10 71)] = ⟨10, 0⟩ := by
    simp [chordOf]
  have hp70 : projLen ⟨10, 0⟩ (hedge 0 5 70) = 5 := by
    rw [hedge_projLen 0 5 10 70 (by norm_num)]; norm_num [abs_of_nonneg]
  have hp75 : projLen ⟨10, 0⟩ (hedge 4 5 75) = 1 := by
    rw [hedge_projLen 4 5 10 75 (by norm_num)]; norm_num [abs_of_nonneg]
  have hp71 : projLen ⟨10, 0⟩ (hedge 5 10 71) = 5 := by
    rw [hedge_projLen 5 10 10 71 (by norm_num)]; norm_num [abs_of_nonneg]
  have hl74 : (hedge 0 4 74).length = 4 := by
    rw [hedge_length]; norm_num [abs_of_nonneg]
  rw [mscLoop]
  simp only [List.nil_append, hch0, hp70, hedge_start, hedge_stop]
  rw [if_neg (by norm_num [close_enough, abs_sub_lt_iff])]
  rw [if_neg (by norm_num)]
  norm_num
  rw [ff_C7a]
  simp only [hl74]
  rw [mscLoop]
  simp only [List.cons_append, List.nil_append, hch1, hp75]
  rw [if_neg (by norm_num [close_enough, abs_sub_lt_iff])]
  rw [if_pos (by norm_num)]
  rw [mscLoop]
  simp only [List.cons_append, List.nil_append, List.append_assoc,
    List.singleton_append, hch1, hp71]
  rw [if_pos (by norm_num [close_enough, abs_sub_lt_iff])]
  rw [mscLoop]
  simp

theorem msc_C7b : mscLoop (1/10) 76 [] [(panelB, hedge 0 4 72), (panelB, hedge 4 10 73)]
    [5, 5] 0 0 =
    .ok ([(panelB, hedge 0 4 72), (panelB, hedge 4 5 76), (panelB, hedge 5 10 77)], 78) := by
  have hch0 : chordOf [(panelB, hedge 0 4 72), (panelB, hedge 4 10 73)] = ⟨10, 0⟩ := by
    simp [chordOf]
  have hch1 : chordOf [(panelB, hedge 0 4 72), (panelB, hedge 4 5 76),
      (panelB, hedge 5 10 77)] = ⟨10, 0⟩ := by
    simp [chordOf]
  have hp72 : projLen ⟨10, 0⟩ (hedge 0 4 72) = 4 := by
    rw [hedge_projLen 0 4 10 72 (by norm_num)]; norm_num [abs_of_nonneg]
  have hp73 : projLen ⟨10, 0⟩ (hedge 4 10 73) = 6 := by
    rw [hedge_projLen 4 10 10 73 (by norm_num)]; norm_num [abs_of_nonneg]
  have hp77 : projLen ⟨10, 0⟩ (hedge 5 10 77) = 5 := by
    rw [hedge_projLen 5 10 10 77 (by norm_num)]; norm_num [abs_of_nonneg]
  have hl76 : (hedge 4 5 76).length = 1 := by
    rw [hedge_length]; norm_num [abs_of_nonneg]
  rw [mscLoop]
  simp only [List.nil_append, hch0, hp72, hedge_start, hedge_stop]
  rw [if_neg (by norm_num [close_enough, abs_sub_lt_iff])]
  rw [if_pos (by norm_num)]
  rw [mscLoop]
  simp only [List.cons_append, List.nil_append, hch0, hp73, hedge_start, hedge_stop]
  rw [if_neg (by norm_num [close_enough, abs_sub_lt_iff])]
  rw [if_neg (by norm_num)]
  norm_num
  rw [ff_C7b]
  simp only [hl76]
  rw [mscLoop]
  simp only [List.cons_append, List.nil_append, List.append_assoc,
    List.singleton_append, hch1, hp77]
  rw [if_pos (by norm_num [close_enough, abs_sub_lt_iff])]
  rw [mscLoop]
  simp

theorem mec_C7 : match_edge_count i7a i7b (1/10) 74 = .ok (i7a2, i7b2, 78) := by
  have htrav : isTraversalMatching i7a i7b = true := by
    have hs1 : startPt3 i7a = ⟨0, 0, 0⟩ := by simp [startPt3, i7a, panelA, hedge]
    have hs2 : startPt3 i7b = ⟨0, 0, 0⟩ := by simp [startPt3, i7b, panelB, hedge]
    have he1 : endPt3 i7a = ⟨10, 0, 0⟩ := by simp [endPt3, i7a, panelA, hedge]
    have he2 : endPt3 i7b = ⟨10, 0, 0⟩ := by simp [endPt3, i7b, panelB, hedge]
    have hr : reverseDist i7a i7b = 20 := by
      simp only [reverseDist, hs1, hs2, he1, he2, Pt3.sub3_mk]
      norm_num [norm3_x, abs_of_nonneg, abs_of_nonpos]
    have hst : straightDist i7a i7b = 0 := by
      simp only [straightDist, hs1, hs2, he1, he2, Pt3.sub3_mk]
      norm_num [norm3_x]
    simp only [isTraversalMatching, hr, hst]
    rw [if_pos (show 1 < i7a.entries.length by simp [i7a])]
    norm_num
  have hl1 : projLens i7a = [5, 5] := by
    have hch : chordOf [(panelA, hedge 0 5 70), (panelA, hedge 5 10 71)] = ⟨10, 0⟩ := by
      simp [chordOf]
    simp only [projLens, i7a, List.map_cons, List.map_nil, hch]
    rw [hedge_projLen 0 5 10 70 (by norm_num), hedge_projLen 5 10 10 71 (by norm_num)]
    norm_num [abs_of_nonneg]
  have hl2 : projLens i7b = [4, 6] := by
    have hch : chordOf [(panelB, hedge 0 4 72), (panelB, hedge 4 10 73)] = ⟨10, 0⟩ := by
      simp [chordOf]
    simp only [projLens, i7b, List.map_cons, List.map_nil, hch]
    rw [hedge_projLen 0 4 10 72 (by norm_num), hedge_projLen 4 10 10 73 (by norm_num)]
    norm_num [abs_of_nonneg]
  simp only [match_edge_count, htrav, if_true, hl1, hl2]
  rw [if_pos (by norm_num [close_enough, abs_sub_lt_iff])]
  simp only [match_side_count, i7a, i7b]
  rw [msc_C7a]
  simp only [Except.map]
  rw [msc_C7b]
  simp [i7a2, i7b2]

/-- Counterexample to C7 as stated: the interfaces `[5,5]` and `[4,6]`
have equal edge counts (2 = 2) and equal total projected lengths
(10 = 10), yet `match_edge_count` subdivides BOTH sides — each ends up
with three edges — so "no structural mutation" under those hypotheses
alone is false. -/
theorem claim_C7_cex :
    i7a.entries.length = i7b.entries.length ∧
    (projLens i7a).sum = (projLens i7b).sum ∧
    match_edge_count i7a i7b (1/10) 74 = .ok (i7a2, i7b2, 78) ∧
    i7a2.entries.length = 3 ∧ i7a.entries.length = 2 := by
  have hl1 : projLens i7a = [5, 5] := by
    have hch : chordOf [(panelA, hedge 0 5 70), (panelA, hedge 5 10 71)] = ⟨10, 0⟩ := by
      simp [chordOf]
    simp only [projLens, i7a, List.map_cons, List.map_nil, hch]
    rw [hedge_projLen 0 5 10 70 (by norm_num), hedge_projLen 5 10 10 71 (by norm_num)]
    norm_num [abs_of_nonneg]
  have hl2 : projLens i7b = [4, 6] := by
    have hch : chordOf [(panelB, hedge 0 4 72), (panelB, hedge 4 10 73)] = ⟨10, 0⟩ := by
      simp [chordOf]
    simp only [projLens, i7b, List.map_cons, List.map_nil, hch]
    rw [hedge_projLen 0 4 10 72 (by norm_num), hedge_projLen 4 10 10 73 (by norm_num)]
    norm_num [abs_of_nonneg]
  refine ⟨by simp [i7a, i7b], by rw [hl1, hl2]; norm_num, mec_C7, by simp [i7a2],
    by simp [i7a]⟩

/-- C10 (amended): constructing a `StitchingRule` (directly, via the
`Stitches` constructor, or via `Stitches.append`) with interfaces of
unequal edge count runs `match_edge_count` inside the constructor, so the
stored interfaces are the matched ones — subdivided as needed, possibly on
one side only — before construction returns; with equal edge counts the
constructor performs no mutation at all. -/
theorem claim_C10 (i1 i2 : Interface) (supply : ℕ) :
    (i1.entries.length = i2.entries.length →
      mkStitchingRule i1 i2 supply = .ok (⟨i1, i2⟩, supply)) ∧
    (i1.entries.length ≠ i2.entries.length →
      mkStitchingRule i1 i2 supply =
        (match_edge_count i1 i2 (1/10) supply).map
          (fun r => (⟨r.1, r.2.1⟩, r.2.2))) ∧
    (mkStitches [(i1, i2)] supply =
      (mkStitchingRule i1 i2 supply).map fun r => ([r.1], r.2)) ∧
    (∀ rules, stitchesAppend rules (i1, i2) supply =
      (mkStitchingRule i1 i2 supply).map fun r => (rules ++ [r.1], r.2)) := by
  refine ⟨?_, ?_, ?_, ?_⟩
  · intro h; rw [mkStitchingRule, if_pos h]
  · intro h; rw [mkStitchingRule, if_neg h]
  · rcases hr : mkStitchingRule i1 i2 supply with e | pr
    · simp [mkStitches, hr, Except.map]
    · obtain ⟨r, s⟩ := pr
      simp [mkStitches, hr, Except.map]
  · intro rules
    rfl

/-- Counterexample to C10's "mutating both interfaces": constructing the
rule on the 1-edge versus 2-edge scenario subdivides interface 1 but
returns interface 2 COMPLETELY unchanged — `match_edge_count` only
subdivides the sides that need it. -/
theorem claim_C10_cex :
    iA.entries.length ≠ iB.entries.length ∧
    mkStitchingRule iA iB 3 = .ok (⟨iA2, iB⟩, 5) ∧
    iA2 ≠ iA ∧
    (⟨iA2, iB⟩ : StitchingRule).int2 = iB := by
  refine ⟨by simp [iA, iB], ?_, ?_, rfl⟩
  · rw [mkStitchingRule, if_neg (by simp [iA, iB])]
    rw [mec_C1]
    simp [Except.map]
  · intro h
    have hlen : iA2.entries.length = iA.entries.length := by rw [h]
    simp [iA2, iA] at hlen

/-- Equal-count interface 1 for the C10 witness. -/
noncomputable def iE1 : Interface := ⟨[(panelA, hedge 0 7 80)]⟩

/-- Equal-count interface 2 for the C10 witness. -/
noncomputable def iE2 : Interface := ⟨[(panelB, hedge 0 7 81)]⟩

/-- Witness for C10: with equal edge counts the constructor stores both
interfaces untouched. -/
theorem claim_C10_witness :
    iE1.entries.length = iE2.entries.length ∧
    mkStitchingRule iE1 iE2 0 = .ok (⟨iE1, iE2⟩, 0) := by
  exact ⟨by simp [iE1, iE2], (claim_C10 iE1 iE2 0).1 (by simp [iE1, iE2])⟩
